import Mathlib

/-!
Verification of the yaml2json converter (`main.go`).

The Go program loads a YAML document from a file or an HTTP URL, decodes it
into `map[interface{}]interface{}`, rewrites the tree with `transformData`
so that every mapping key is a string (string keys pass through, `int` keys
go through `strconv.Itoa`, anything else is an error), and serializes the
result with `encoding/json`.

The tree of parsed YAML values is embedded as the inductive `GNode`:
scalars (string, int in this model as unbounded `Int` since no arithmetic is
performed on them, float represented by its decimal scientific notation,
bool, null), sequences, and mappings as association lists of key/value
pairs.  A Go map is unordered; an association list fixes one iteration
order, so facts that must not depend on that order are stated up to the
recursive key-sorting normal form `canon`.
-/

namespace Yaml2Json

/-- A parsed YAML value (Go `interface{}` as produced by `yaml.v2`):
string, int, float (kept as mantissa/exponent of its decimal scientific
notation, since the converter never computes with floats), bool, null,
sequence (`[]interface{}`), or mapping (`map[interface{}]interface{}`,
embedded as an association list in iteration order). -/
inductive GNode where
  | str (s : String)
  | int (n : Int)
  | float (m : Int) (e : Int)
  | bool (b : Bool)
  | null
  | seq (xs : List GNode)
  | map (kvs : List (GNode × GNode))
deriving Repr

mutual

/-- Structural equality test for `GNode`, recursing through the nested
list positions. -/
def gbeq : GNode → GNode → Bool
  | .str a, .str b => a == b
  | .int a, .int b => a == b
  | .float a b, .float c d => a == c && b == d
  | .bool a, .bool b => a == b
  | .null, .null => true
  | .seq a, .seq b => gbeqList a b
  | .map a, .map b => gbeqEntries a b
  | _, _ => false

/-- Positionwise `gbeq` on lists of values. -/
def gbeqList : List GNode → List GNode → Bool
  | [], [] => true
  | x :: xs, y :: ys => gbeq x y && gbeqList xs ys
  | _, _ => false

/-- Positionwise `gbeq` on lists of key/value pairs. -/
def gbeqEntries : List (GNode × GNode) → List (GNode × GNode) → Bool
  | [], [] => true
  | (k₁, v₁) :: xs, (k₂, v₂) :: ys => gbeq k₁ k₂ && gbeq v₁ v₂ && gbeqEntries xs ys
  | _, _ => false

end

mutual

theorem gbeq_iff_eq : ∀ a b : GNode, gbeq a b = true ↔ a = b
  | .str _, .str _ => by simp [gbeq]
  | .int _, .int _ => by simp [gbeq]
  | .float _ _, .float _ _ => by simp [gbeq]
  | .bool _, .bool _ => by simp [gbeq]
  | .null, .null => by simp [gbeq]
  | .seq x, .seq y => by simp [gbeq, gbeqList_iff_eq x y]
  | .map x, .map y => by simp [gbeq, gbeqEntries_iff_eq x y]
  | .str _, .int _ | .str _, .float _ _ | .str _, .bool _ | .str _, .null
  | .str _, .seq _ | .str _, .map _
  | .int _, .str _ | .int _, .float _ _ | .int _, .bool _ | .int _, .null
  | .int _, .seq _ | .int _, .map _
  | .float _ _, .str _ | .float _ _, .int _ | .float _ _, .bool _ | .float _ _, .null
  | .float _ _, .seq _ | .float _ _, .map _
  | .bool _, .str _ | .bool _, .int _ | .bool _, .float _ _ | .bool _, .null
  | .bool _, .seq _ | .bool _, .map _
  | .null, .str _ | .null, .int _ | .null, .float _ _ | .null, .bool _
  | .null, .seq _ | .null, .map _
  | .seq _, .str _ | .seq _, .int _ | .seq _, .float _ _ | .seq _, .bool _
  | .seq _, .null | .seq _, .map _
  | .map _, .str _ | .map _, .int _ | .map _, .float _ _ | .map _, .bool _
  | .map _, .null | .map _, .seq _ => by simp [gbeq]

theorem gbeqList_iff_eq : ∀ xs ys : List GNode, gbeqList xs ys = true ↔ xs = ys
  | [], [] => by simp [gbeqList]
  | x :: xs, y :: ys => by simp [gbeqList, gbeq_iff_eq x y, gbeqList_iff_eq xs ys]
  | [], _ :: _ => by simp [gbeqList]
  | _ :: _, [] => by simp [gbeqList]

theorem gbeqEntries_iff_eq :
    ∀ xs ys : List (GNode × GNode), gbeqEntries xs ys = true ↔ xs = ys
  | [], [] => by simp [gbeqEntries]
  | (k₁, v₁) :: xs, (k₂, v₂) :: ys => by
    simp [gbeqEntries, gbeq_iff_eq k₁ k₂, gbeq_iff_eq v₁ v₂,
      gbeqEntries_iff_eq xs ys, and_assoc]
  | [], _ :: _ => by simp [gbeqEntries]
  | _ :: _, [] => by simp [gbeqEntries]

end

instance : DecidableEq GNode := fun a b => decidable_of_iff _ (gbeq_iff_eq a b)

/-- The digit character for `d < 10` (code point `48 + d`). -/
def digitChar (d : Nat) : Char := Char.ofNat (48 + d)

/-- Fuel-indexed base-10 digit rendering: one division by ten per unit of
fuel, which always suffices because the callers pass the number itself. -/
def natCharsF : Nat → Nat → List Char
  | 0, n => [digitChar n]
  | fuel + 1, n =>
    if n < 10 then [digitChar n] else natCharsF fuel (n / 10) ++ [digitChar (n % 10)]

/-- The base-10 digits of a natural number, most significant first — the
digit string `strconv.Itoa` renders for a non-negative value. -/
def natChars (n : Nat) : List Char := natCharsF n n

/-- Embedding of Go `strconv.Itoa`: canonical base-10 decimal rendering of
an integer, `-` followed by the digits of the magnitude when negative. -/
def intChars (i : Int) : List Char :=
  if i < 0 then '-' :: natChars (-i).toNat else natChars i.toNat

/-- `strconv.Itoa` as a `String`. -/
def intString (i : Int) : String := String.mk (intChars i)

/-- What Go's `%T` verb prints for the dynamic type of each `GNode`
variant (`main.go` line 130 interpolates it into the error message). -/
def goTypeName : GNode → String
  | .str _ => "string"
  | .int _ => "int"
  | .float _ _ => "float64"
  | .bool _ => "bool"
  | .null => "<nil>"
  | .seq _ => "[]interface \x7b\x7d"
  | .map _ => "map[interface \x7b\x7d]interface \x7b\x7d"

/-- The error text `transformData` produces for an unsupported key
(`fmt.Errorf("types don't match: expect map key string or int get: %T", k)`). -/
def keyErrMsg (k : GNode) : String :=
  "types don't match: expect map key string or int get: " ++ goTypeName k

/-- The key type-switch inside `transformData` (`main.go` lines 123–131):
a string key is used as is, an int key goes through `strconv.Itoa`, any
other key aborts with the `types don't match` error. -/
def coerceKey : GNode → Except String String
  | .str s => .ok s
  | .int i => .ok (intString i)
  | k => .error (keyErrMsg k)

/-- Go map assignment `o[sk] = v` on the association-list image of
`map[string]interface{}`: overwrite the entry whose key is `sk` if one
exists, otherwise append a fresh entry. -/
def mapSet (o : List (GNode × GNode)) (sk : String) (v : GNode) : List (GNode × GNode) :=
  if o.any (fun p => p.1 = GNode.str sk) then
    o.map (fun p => if p.1 = GNode.str sk then (GNode.str sk, v) else p)
  else o ++ [(GNode.str sk, v)]

mutual

/-- Embedding of `transformData` (`main.go` lines 118–152): a mapping has
each key coerced by `coerceKey` and each value transformed recursively,
collected into a string-keyed map with Go map-assignment semantics; a
sequence has each element transformed in order; everything else is
returned unchanged. -/
def transformData : GNode → Except String GNode
  | .map kvs => do
      let o ← transformEntries kvs []
      pure (.map o)
  | .seq xs => do
      let o ← transformElems xs
      pure (.seq o)
  | g => pure g
termination_by structural t => t

/-- The `for k, v := range` loop over a mapping's entries, accumulating
into the output map `acc`; stops at the first failing key or value. -/
def transformEntries :
    List (GNode × GNode) → List (GNode × GNode) → Except String (List (GNode × GNode))
  | [], acc => pure acc
  | (k, v) :: rest, acc => do
      let sk ← coerceKey k
      let v2 ← transformData v
      transformEntries rest (mapSet acc sk v2)
termination_by structural l => l

/-- The indexed loop over a sequence's elements (`main.go` lines 143–148). -/
def transformElems : List GNode → Except String (List GNode)
  | [] => pure []
  | x :: xs => do
      let x2 ← transformData x
      let xs2 ← transformElems xs
      pure (x2 :: xs2)
termination_by structural l => l

end

/-- A key the type-switch accepts: Go `string` or Go `int`. -/
def isStrOrInt : GNode → Bool
  | .str _ => true
  | .int _ => true
  | _ => false

/-- The node is a string scalar. -/
def isStr : GNode → Bool
  | .str _ => true
  | _ => false

mutual

/-- Every mapping key in the tree, at every depth, is a string — the
canonical-tree invariant of the spec. -/
def allStrKeys : GNode → Bool
  | .map kvs => allStrKeysE kvs
  | .seq xs => allStrKeysL xs
  | _ => true

/-- `allStrKeys` over a mapping's entries. -/
def allStrKeysE : List (GNode × GNode) → Bool
  | [] => true
  | (k, v) :: rest => isStr k && allStrKeys v && allStrKeysE rest

/-- `allStrKeys` over a sequence's elements. -/
def allStrKeysL : List GNode → Bool
  | [] => true
  | x :: xs => allStrKeys x && allStrKeysL xs

end

mutual

/-- Every mapping key in the tree, at every depth, is a string or an int —
the trees on which the key coercion cannot fail. -/
def goodKeys : GNode → Bool
  | .map kvs => goodKeysE kvs
  | .seq xs => goodKeysL xs
  | _ => true

/-- `goodKeys` over a mapping's entries. -/
def goodKeysE : List (GNode × GNode) → Bool
  | [] => true
  | (k, v) :: rest => isStrOrInt k && goodKeys v && goodKeysE rest

/-- `goodKeys` over a sequence's elements. -/
def goodKeysL : List GNode → Bool
  | [] => true
  | x :: xs => goodKeys x && goodKeysL xs

end

mutual

/-- `k` occurs somewhere in the tree as a mapping key. -/
def keyOccurs (k : GNode) : GNode → Bool
  | .map kvs => keyOccursE k kvs
  | .seq xs => keyOccursL k xs
  | _ => false

/-- `keyOccurs` over a mapping's entries. -/
def keyOccursE (k : GNode) : List (GNode × GNode) → Bool
  | [] => false
  | (k2, v) :: rest => k == k2 || keyOccurs k v || keyOccursE k rest

/-- `keyOccurs` over a sequence's elements. -/
def keyOccursL (k : GNode) : List GNode → Bool
  | [] => false
  | x :: xs => keyOccurs k x || keyOccursL k xs

end

/-- No two elements of the list are equal. -/
def nodupB {α : Type} [DecidableEq α] : List α → Bool
  | [] => true
  | x :: xs => !(xs.any (fun y => x = y)) && nodupB xs

mutual

/-- Every mapping in the tree has pairwise distinct keys.  A Go map can
never hold the same key twice, so every tree that arises from decoding a
document satisfies this; association lists are more permissive, and this
predicate carves out the faithful images of Go values. -/
def wfKeys : GNode → Bool
  | .map kvs => nodupB (kvs.map Prod.fst) && wfKeysE kvs
  | .seq xs => wfKeysL xs
  | _ => true

/-- `wfKeys` over a mapping's entries (the values). -/
def wfKeysE : List (GNode × GNode) → Bool
  | [] => true
  | (_, v) :: rest => wfKeys v && wfKeysE rest

/-- `wfKeys` over a sequence's elements. -/
def wfKeysL : List GNode → Bool
  | [] => true
  | x :: xs => wfKeys x && wfKeysL xs

end

/-- The string a supported key coerces to (junk `""` on unsupported keys,
which the callers always rule out). -/
def coercedName : GNode → String
  | .str s => s
  | .int i => intString i
  | _ => ""

mutual

/-- Within every mapping of the tree, the coerced key strings are pairwise
distinct — no "last write wins" overwriting can happen. -/
def coercedNodup : GNode → Bool
  | .map kvs => nodupB (kvs.map (fun p => coercedName p.1)) && coercedNodupE kvs
  | .seq xs => coercedNodupL xs
  | _ => true

/-- `coercedNodup` over a mapping's entries (the values). -/
def coercedNodupE : List (GNode × GNode) → Bool
  | [] => true
  | (_, v) :: rest => coercedNodup v && coercedNodupE rest

/-- `coercedNodup` over a sequence's elements. -/
def coercedNodupL : List GNode → Bool
  | [] => true
  | x :: xs => coercedNodup x && coercedNodupL xs

end

/-- ASCII decimal digit test. -/
def isDigitChar (c : Char) : Bool := 48 ≤ c.toNat && c.toNat ≤ 57

/-- Numeric value of a decimal digit character. -/
def digVal (c : Char) : Nat := c.toNat - 48

/-- The number denoted by a list of decimal digit characters, most
significant first. -/
def decValue (ds : List Char) : Nat := ds.foldl (fun a c => 10 * a + digVal c) 0

/-- `canonicalDecimal` on the character list of the string. -/
def canonicalDecimalChars (i : Int) : List Char → Bool
  | [] => false
  | c :: ds =>
    if c = '-' then
      decide (i < 0) && !ds.isEmpty && ds.all isDigitChar
        && (match ds with | [] => false | d :: _ => decide (d ≠ '0'))
        && decide ((decValue ds : Int) = -i)
    else
      decide (0 ≤ i) && (c :: ds).all isDigitChar
        && (if c = '0' then ds.isEmpty else true)
        && decide ((decValue (c :: ds) : Int) = i)

/-- The specification's reading of "canonical base-10 decimal string":
a sign present exactly for negative values, decimal digits only, no
leading zero, and the digits denote the magnitude. -/
def canonicalDecimal (i : Int) (s : String) : Bool :=
  canonicalDecimalChars i s.data

mutual

/-- Modelled from the spec: the pure tree rewrite the spec describes for
`normalize` on collision-free input — replace every mapping key by its
coerced string, keep shape, order and scalar values.  Stated separately
from `transformData` so the two can be compared. -/
def mapKeysToStr : GNode → GNode
  | .map kvs => .map (mapKeysToStrE kvs)
  | .seq xs => .seq (mapKeysToStrL xs)
  | g => g

/-- `mapKeysToStr` over a mapping's entries. -/
def mapKeysToStrE : List (GNode × GNode) → List (GNode × GNode)
  | [] => []
  | (k, v) :: rest => (GNode.str (coercedName k), mapKeysToStr v) :: mapKeysToStrE rest

/-- `mapKeysToStr` over a sequence's elements. -/
def mapKeysToStrL : List GNode → List GNode
  | [] => []
  | x :: xs => mapKeysToStr x :: mapKeysToStrL xs

end

/-! ## The target-format serializer and parser

`encoding/json` is an external library, so the serializer is modelled from
the spec: a deterministic compact encode per the JSON grammar (strings
quoted with `\\`, `\"` and `\u00XX` control escapes, integers in canonical
decimal, the float scalar as `<mantissa>e<exponent>`, literal `true`,
`false`, `null`, bracketed arrays and braced objects), with object keys
emitted in ascending byte-wise order the way `json.Marshal` sorts map
keys.  The recursive key sort is factored into the normal form `canon`;
emission itself is `emitVal`.  The parser `parseJson` is the matching
reader for that grammar, used for the re-parse step of the spec.
-/
def quoteChar : Char := Char.ofNat 34

def backslashChar : Char := Char.ofNat 92

def lbrackChar : Char := Char.ofNat 91

def rbrackChar : Char := Char.ofNat 93

def lbraceChar : Char := Char.ofNat 123

def rbraceChar : Char := Char.ofNat 125

def commaChar : Char := Char.ofNat 44

def colonChar : Char := Char.ofNat 58

/-- Byte-wise (code-point-wise) lexicographic order on character lists —
the order `sort.Strings` gives UTF-8 encoded Go strings. -/
def lexLe : List Char → List Char → Bool
  | [], _ => true
  | _ :: _, [] => false
  | a :: as, b :: bs =>
    if a.toNat < b.toNat then true
    else if b.toNat < a.toNat then false
    else lexLe as bs

/-- The string carried by a string node (junk `""` otherwise; object keys
are always string nodes where this is used). -/
def strVal : GNode → String
  | .str s => s
  | _ => ""

/-- Key order used when emitting an object: ascending byte-wise key. -/
def keyLeB (p q : GNode × GNode) : Bool := lexLe (strVal p.1).data (strVal q.1).data

/-- Ordered insertion by `keyLeB` (stable: an equal key goes first). -/
def insKV (p : GNode × GNode) : List (GNode × GNode) → List (GNode × GNode)
  | [] => [p]
  | q :: qs => if keyLeB p q then p :: q :: qs else q :: insKV p qs

/-- Insertion sort of object entries by key, the order `json.Marshal`
emits Go map entries in. -/
def sortKV : List (GNode × GNode) → List (GNode × GNode)
  | [] => []
  | p :: ps => insKV p (sortKV ps)

mutual

/-- The key-sorted normal form of a tree: every object's entries are
sorted by key, recursively.  Two association-list images of the same
(unordered) Go map tree have the same `canon`; serialization factors
through it. -/
def canon : GNode → GNode
  | .map kvs => .map (sortKV (canonE kvs))
  | .seq xs => .seq (canonL xs)
  | g => g

/-- `canon` over entries (values only; keys are left alone). -/
def canonE : List (GNode × GNode) → List (GNode × GNode)
  | [] => []
  | (k, v) :: rest => (k, canon v) :: canonE rest

/-- `canon` over sequence elements. -/
def canonL : List GNode → List GNode
  | [] => []
  | x :: xs => canon x :: canonL xs

end

mutual

/-- Parser-call weight of a node: an upper bound bookkeeping device for
the fuel the reader needs. -/
def gweight : GNode → Nat
  | .map kvs => 1 + eweight kvs
  | .seq xs => 1 + lweight xs
  | _ => 1

/-- Weight of object entries. -/
def eweight : List (GNode × GNode) → Nat
  | [] => 0
  | (_, v) :: rest => 1 + gweight v + eweight rest

/-- Weight of array elements. -/
def lweight : List GNode → Nat
  | [] => 0
  | x :: xs => 1 + gweight x + lweight xs

end

/-- The hexadecimal digit character for `d < 16` (lower case, as
`encoding/json` writes `\u00xx` escapes). -/
def hexDigitChar (d : Nat) : Char :=
  if d < 10 then digitChar d else Char.ofNat (87 + d)

/-- JSON string escaping of one character: quote and backslash get a
backslash escape, control characters a `\u00XX` escape, everything else
passes through. -/
def escChar (c : Char) : List Char :=
  if c = quoteChar then [backslashChar, quoteChar]
  else if c = backslashChar then [backslashChar, backslashChar]
  else if c.toNat < 32 then
    [backslashChar, 'u', '0', '0', hexDigitChar (c.toNat / 16), hexDigitChar (c.toNat % 16)]
  else [c]

/-- JSON string escaping of a character list. -/
def escapeChars : List Char → List Char
  | [] => []
  | c :: cs => escChar c ++ escapeChars cs

/-- A JSON string token for `s`. -/
def quoteString (s : String) : List Char :=
  quoteChar :: (escapeChars s.data ++ [quoteChar])

mutual

/-- Emission per the JSON grammar of a tree whose object keys are already
in the desired order; fails (as `json.Marshal` does) on an object key
that is not a string. -/
def emitVal : GNode → Option (List Char)
  | .str s => some (quoteString s)
  | .int i => some (intChars i)
  | .float m e => some (intChars m ++ 'e' :: intChars e)
  | .bool true => some ['t', 'r', 'u', 'e']
  | .bool false => some ['f', 'a', 'l', 's', 'e']
  | .null => some ['n', 'u', 'l', 'l']
  | .seq xs =>
    match emitElems xs with
    | some body => some (lbrackChar :: (body ++ [rbrackChar]))
    | none => none
  | .map kvs =>
    match emitEntries kvs with
    | some body => some (lbraceChar :: (body ++ [rbraceChar]))
    | none => none

/-- Comma-separated `"key":value` emission of object entries. -/
def emitEntries : List (GNode × GNode) → Option (List Char)
  | [] => some []
  | [(k, v)] =>
    match k with
    | .str s =>
      match emitVal v with
      | some bv => some (quoteString s ++ colonChar :: bv)
      | none => none
    | _ => none
  | (k, v) :: p :: rest =>
    match k with
    | .str s =>
      match emitVal v, emitEntries (p :: rest) with
      | some bv, some br => some (quoteString s ++ colonChar :: bv ++ commaChar :: br)
      | _, _ => none
    | _ => none

/-- Comma-separated emission of array elements. -/
def emitElems : List GNode → Option (List Char)
  | [] => some []
  | [x] => emitVal x
  | x :: y :: ys =>
    match emitVal x, emitElems (y :: ys) with
    | some bx, some br => some (bx ++ commaChar :: br)
    | _, _ => none

end

/-- The serializer of the conversion pipeline (`json.Marshal` on the
transformed document): keys sorted recursively, then emitted per the
grammar. -/
def serializeJSON (t : GNode) : Option (List Char) := emitVal (canon t)

/-- Value of one hexadecimal digit character (lower case letters only,
matching what the emitter writes). -/
def hexVal (c : Char) : Option Nat :=
  if isDigitChar c then some (digVal c)
  else if 97 ≤ c.toNat && c.toNat ≤ 102 then some (c.toNat - 87)
  else none

/-- Prefix one decoded character onto a string-body parse result. -/
def mapConsChar (c : Char) : Option (List Char × List Char) → Option (List Char × List Char)
  | some p => some (c :: p.1, p.2)
  | none => none

/-- Read a JSON string body after the opening quote: plain characters up
to the closing quote, honouring `\\`, `\"` and `\uXXXX` escapes.  Returns
the decoded characters and the input after the closing quote.  Fuel counts
decoded characters; callers pass the input length, which always
suffices. -/
def parseStrBodyF : Nat → List Char → Option (List Char × List Char)
  | 0, _ => none
  | fuel + 1, cs =>
    match cs with
    | [] => none
    | c :: rest =>
      if c = quoteChar then some ([], rest)
      else if c = backslashChar then
        match rest with
        | [] => none
        | e :: rest2 =>
          if e = quoteChar then mapConsChar quoteChar (parseStrBodyF fuel rest2)
          else if e = backslashChar then mapConsChar backslashChar (parseStrBodyF fuel rest2)
          else if e = 'u' then
            match rest2 with
            | h1 :: h2 :: h3 :: h4 :: rest3 =>
              match hexVal h1, hexVal h2, hexVal h3, hexVal h4 with
              | some a, some b, some c2, some d =>
                mapConsChar (Char.ofNat (((a * 16 + b) * 16 + c2) * 16 + d))
                  (parseStrBodyF fuel rest3)
              | _, _, _, _ => none
            | _ => none
          else none
      else mapConsChar c (parseStrBodyF fuel rest)

/-- Split off the leading run of decimal digits. -/
def readDigits : List Char → List Char × List Char
  | [] => ([], [])
  | c :: cs =>
    if isDigitChar c then
      match readDigits cs with
      | (ds, r) => (c :: ds, r)
    else ([], c :: cs)

/-- Read a JSON number: optional minus, digits, and an optional
`e`-exponent (again optional minus plus digits), which distinguishes the
float scalar from the int scalar. -/
def parseNumber (cs : List Char) : Option (GNode × List Char) :=
  let signSplit : Bool × List Char :=
    match cs with
    | c :: cs2 => if c = '-' then (true, cs2) else (false, cs)
    | [] => (false, [])
  match readDigits signSplit.2 with
  | (ds, cs3) =>
    if ds.isEmpty then none
    else
      let m : Int := if signSplit.1 then -(decValue ds : Int) else (decValue ds : Int)
      match cs3 with
      | c :: cs4 =>
        if c = 'e' then
          let signSplit2 : Bool × List Char :=
            match cs4 with
            | d :: cs5 => if d = '-' then (true, cs5) else (false, cs4)
            | [] => (false, [])
          match readDigits signSplit2.2 with
          | (ds2, cs6) =>
            if ds2.isEmpty then none
            else
              let ex : Int :=
                if signSplit2.1 then -(decValue ds2 : Int) else (decValue ds2 : Int)
              some (.float m ex, cs6)
        else some (.int m, c :: cs4)
      | [] => some (.int m, [])

mutual

/-- Fuel-indexed JSON value reader.  One unit of fuel per grammar
production step; the top-level wrapper passes the input length, which is
always enough. -/
def parseVal : Nat → List Char → Option (GNode × List Char)
  | 0, _ => none
  | fuel + 1, cs =>
    match cs with
    | [] => none
    | c :: rest =>
      if c = quoteChar then
        match parseStrBodyF (rest.length + 1) rest with
        | some p => some (GNode.str (String.mk p.1), p.2)
        | none => none
      else if c = lbrackChar then
        match rest with
        | d :: rest2 =>
          if d = rbrackChar then some (.seq [], rest2)
          else
            match parseElems fuel rest with
            | some p => some (GNode.seq p.1, p.2)
            | none => none
        | [] => none
      else if c = lbraceChar then
        match rest with
        | d :: rest2 =>
          if d = rbraceChar then some (.map [], rest2)
          else
            match parseEntries fuel rest with
            | some p => some (GNode.map p.1, p.2)
            | none => none
        | [] => none
      else if c = 't' then
        match rest with
        | 'r' :: 'u' :: 'e' :: rest2 => some (.bool true, rest2)
        | _ => none
      else if c = 'f' then
        match rest with
        | 'a' :: 'l' :: 's' :: 'e' :: rest2 => some (.bool false, rest2)
        | _ => none
      else if c = 'n' then
        match rest with
        | 'u' :: 'l' :: 'l' :: rest2 => some (.null, rest2)
        | _ => none
      else parseNumber cs

/-- Reader of the non-empty element list of an array, up to and including
the closing bracket. -/
def parseElems : Nat → List Char → Option (List GNode × List Char)
  | 0, _ => none
  | fuel + 1, cs =>
    match parseVal fuel cs with
    | some (v, r) =>
      match r with
      | c :: r2 =>
        if c = commaChar then
          match parseElems fuel r2 with
          | some p => some (v :: p.1, p.2)
          | none => none
        else if c = rbrackChar then some ([v], r2)
        else none
      | [] => none
    | none => none

/-- Reader of the non-empty entry list of an object, up to and including
the closing brace. -/
def parseEntries : Nat → List Char → Option (List (GNode × GNode) × List Char)
  | 0, _ => none
  | fuel + 1, cs =>
    match cs with
    | c :: rest =>
      if c = quoteChar then
        match parseStrBodyF (rest.length + 1) rest with
        | some (kcs, r1) =>
          match r1 with
          | d :: r2 =>
            if d = colonChar then
              match parseVal fuel r2 with
              | some (v, r3) =>
                match r3 with
                | e :: r4 =>
                  if e = commaChar then
                    match parseEntries fuel r4 with
                    | some p => some ((GNode.str (String.mk kcs), v) :: p.1, p.2)
                    | none => none
                  else if e = rbraceChar then
                    some ([(GNode.str (String.mk kcs), v)], r4)
                  else none
                | [] => none
              | none => none
            else none
          | [] => none
        | none => none
      else none
    | [] => none

end

/-- The re-parse step of the spec: read one JSON value spanning the whole
byte stream. -/
def parseJson (cs : List Char) : Option GNode :=
  match parseVal (cs.length + 1) cs with
  | some (v, []) => some v
  | _ => none

/-- The characters a well-placed trailing context may start with: a comma
or a closing bracket or brace.  After a serialized number these are the
only characters that may follow, so the number reader stops in the right
place. -/
def safeRest (cs : List Char) : Prop :=
  ∀ c, cs.head? = some c → (c = commaChar ∨ c = rbrackChar ∨ c = rbraceChar)

/-! ## The byte loader

The retrieval layer touches the file system and the network, which are
external collaborators; their responses are abstracted as explicit inputs
(an outcome-valued function), and the control flow of `LoadStrategy`,
`loadHTTPBytes` and `bytesToYAMLDoc` is translated from the source. -/
/-- `startsWithChars pre s`: `pre` is a prefix of `s` (character-wise,
which for UTF-8 byte streams agrees with Go's byte-wise
`strings.HasPrefix`). -/
def startsWithChars : List Char → List Char → Bool
  | [], _ => true
  | _ :: _, [] => false
  | a :: as, b :: bs => a = b && startsWithChars as bs

/-- Embedding of `strings.HasPrefix s pre`. -/
def strStartsWith (s pre : String) : Bool := startsWithChars pre.data s.data

/-- Result type of a loader: raw bytes or an error, the image of Go's
`([]byte, error)`. -/
def LoadResult : Type := Except String (List Nat)

/-- Embedding of `LoadStrategy` (`main.go` lines 65–70): pick the remote
loader exactly when the path starts with `"http"`, the local one
otherwise. -/
def LoadStrategy (path : String) (lcl remote : String → LoadResult) : String → LoadResult :=
  if strStartsWith path "http" then remote else lcl

/-- `LoadHTTPTimeout` (`main.go` line 19): 30 time-units (seconds). -/
def LoadHTTPTimeout : Nat := 30

/-- Abstract outcome of the single GET request `http.Client.Do` issues
for a path under a given timeout.  Modelled from the spec: the transport
is an external collaborator; `doError` covers both a connection that
cannot be established and an elapsed timeout (Go surfaces both as the
error return of `Do`). -/
inductive HTTPOutcome where
  | doError (msg : String)
  | response (status : Nat) (statusText : String) (body : List Nat)

/-- Embedding of `loadHTTPBytes` (`main.go` lines 72–97) over the
abstract transport: one GET via `net path timeout`; a transport error
propagates; a response with status other than 200 (`http.StatusOK`)
becomes the `could not access document` error with the path quoted (`%q`)
and the status text; a 200 response yields the full body. -/
def loadHTTPBytes (timeout : Nat) (net : String → Nat → HTTPOutcome) :
    String → LoadResult :=
  fun path =>
    match net path timeout with
    | .doError msg => .error msg
    | .response status statusText body =>
      if status = 200 then .ok body
      else .error ("could not access document at \"" ++ path ++ "\" [" ++ statusText ++ "] ")

/-- Abstract outcome of the external `yaml.Unmarshal` on a byte stream:
the parser rejects the stream, accepts an empty stream (the decode target
keeps its zero value), or accepts a document with a given root node. -/
inductive YamlOutcome where
  | parseError (msg : String)
  | emptyDoc
  | doc (root : GNode)

/-- The yaml.v2 tag of a root node, as named in its type-mismatch error. -/
def yamlTag : GNode → String
  | .str _ => "!!str"
  | .int _ => "!!int"
  | .float _ _ => "!!float"
  | .bool _ => "!!bool"
  | .null => "!!null"
  | .seq _ => "!!seq"
  | .map _ => "!!map"

/-- The type-mismatch error yaml.v2 reports when a document's root does
not fit the declared decode target `map[interface{}]interface{}`. -/
def yamlTypeErr (r : GNode) : String :=
  "yaml: unmarshal errors:\n  cannot unmarshal " ++ yamlTag r ++
    " into map[interface \x7b\x7d]interface \x7b\x7d"

/-- Roots the decode into `map[interface{}]interface{}` accepts: a
mapping, or null (which leaves the target at its zero value). -/
def rootDecodable : GNode → Bool
  | .map _ => true
  | .null => true
  | _ => false

/-- Embedding of `bytesToYAMLDoc` (`main.go` lines 109–116): the byte
stream is handed to `yaml.Unmarshal` with a `map[interface{}]interface{}`
target.  A parse error propagates unchanged; an empty stream or a null
root leaves the nil map (returned as the empty mapping); a mapping root
decodes to itself; any other root makes the external unmarshaler fail
with its type-mismatch error.  The unmarshaler is external code, so its
accept/reject behaviour on the typed target is modelled from the spec and
the yaml.v2 documentation. -/
def bytesToYAMLDoc (o : YamlOutcome) : Except String GNode :=
  match o with
  | .parseError msg => .error msg
  | .emptyDoc => .ok (.map [])
  | .doc (.map kvs) => .ok (.map kvs)
  | .doc .null => .ok (.map [])
  | .doc r => .error (yamlTypeErr r)

deriving instance DecidableEq for Except

/-- The run succeeded (Go: the error return is nil). -/
def exceptIsOk : Except String GNode → Bool
  | .ok _ => true
  | .error _ => false

theorem digitChar_isDigit : ∀ d, d < 10 → isDigitChar (digitChar d) = true := by decide

theorem digitChar_toNat : ∀ d, d < 10 → (digitChar d).toNat = 48 + d := by decide

theorem natCharsF_ne_nil (fuel n : Nat) : natCharsF fuel n ≠ [] := by
  cases fuel with
  | zero => simp [natCharsF]
  | succ fuel =>
    unfold natCharsF
    split
    · simp
    · simp

theorem natChars_ne_nil (n : Nat) : natChars n ≠ [] := natCharsF_ne_nil n n

theorem natCharsF_all_digit (fuel : Nat) :
    ∀ n, n ≤ fuel → ∀ c ∈ natCharsF fuel n, isDigitChar c = true := by
  induction fuel with
  | zero =>
    intro n hn c hc
    simp only [natCharsF, List.mem_singleton] at hc
    subst hc
    exact digitChar_isDigit n (by omega)
  | succ fuel ih =>
    intro n hn c hc
    unfold natCharsF at hc
    split at hc
    · simp only [List.mem_singleton] at hc
      subst hc
      exact digitChar_isDigit n (by omega)
    · rw [List.mem_append, List.mem_singleton] at hc
      rcases hc with hc | hc
      · exact ih (n / 10) (by omega) c hc
      · subst hc
        exact digitChar_isDigit (n % 10) (by omega)

theorem natChars_all_digit (n : Nat) : ∀ c ∈ natChars n, isDigitChar c = true :=
  natCharsF_all_digit n n (Nat.le_refl n)

theorem decValue_natCharsF (fuel : Nat) :
    ∀ n, n ≤ fuel → decValue (natCharsF fuel n) = n := by
  induction fuel with
  | zero =>
    intro n hn
    have hn0 : n = 0 := by omega
    subst hn0
    simp only [natCharsF, decValue, List.foldl_cons, List.foldl_nil, digVal]
    rw [digitChar_toNat 0 (by omega)]
  | succ fuel ih =>
    intro n hn
    unfold natCharsF
    split
    · simp only [decValue, List.foldl_cons, List.foldl_nil, digVal]
      rw [digitChar_toNat n (by omega)]
      omega
    · simp only [decValue, List.foldl_append, List.foldl_cons, List.foldl_nil]
      have ihn := ih (n / 10) (by omega)
      simp only [decValue] at ihn
      rw [ihn, digVal, digitChar_toNat (n % 10) (by omega)]
      omega

theorem decValue_natChars (n : Nat) : decValue (natChars n) = n :=
  decValue_natCharsF n n (Nat.le_refl n)

theorem natCharsF_no_leading_zero (fuel : Nat) :
    ∀ n, n ≤ fuel → n ≠ 0 → (natCharsF fuel n).head? ≠ some '0' := by
  induction fuel with
  | zero =>
    intro n hn h
    omega
  | succ fuel ih =>
    intro n hn h
    unfold natCharsF
    split
    · rename_i hlt
      simp only [List.head?_cons, ne_eq, Option.some.injEq]
      clear hn
      revert h
      revert hlt
      revert n
      decide
    · obtain ⟨a, as, ha⟩ := List.exists_cons_of_ne_nil (natCharsF_ne_nil fuel (n / 10))
      rw [ha, List.cons_append, List.head?_cons]
      have ihn := ih (n / 10) (by omega) (by omega)
      rw [ha, List.head?_cons] at ihn
      exact ihn

theorem natChars_no_leading_zero (n : Nat) (h : n ≠ 0) : (natChars n).head? ≠ some '0' :=
  natCharsF_no_leading_zero n n (Nat.le_refl n) h

theorem isDigit_ne_dash {c : Char} (h : isDigitChar c = true) : ¬ c = '-' := by
  intro hc
  subst hc
  exact absurd h (by decide)

theorem canonicalDecimal_intString (i : Int) : canonicalDecimal i (intString i) = true := by
  rcases lt_or_le i 0 with hi | hi
  · have hd : (intString i).data = '-' :: natChars (-i).toNat := by
      simp [intString, intChars, if_pos hi]
    obtain ⟨a, as, ha⟩ := List.exists_cons_of_ne_nil (natChars_ne_nil (-i).toNat)
    have hdig := natChars_all_digit (-i).toNat
    have hlead := natChars_no_leading_zero (-i).toNat (by omega)
    have hval := decValue_natChars (-i).toNat
    rw [ha] at hd hdig hlead hval
    rw [List.head?_cons] at hlead
    have hlead2 : ¬ a = '0' := by simpa using hlead
    rw [canonicalDecimal, hd]
    have hcast : ((decValue (a :: as) : Int)) = -i := by
      rw [hval]
      omega
    simp [canonicalDecimalChars, hi, hcast, List.all_eq_true, hlead2, hdig]
    exact fun c hc => hdig c (List.mem_cons_of_mem a hc)
  · have hd : (intString i).data = natChars i.toNat := by
      simp only [intString, intChars]
      rw [if_neg (by omega)]
    obtain ⟨a, as, ha⟩ := List.exists_cons_of_ne_nil (natChars_ne_nil i.toNat)
    have hdig := natChars_all_digit i.toNat
    have hval := decValue_natChars i.toNat
    have hlead := natCharsF_no_leading_zero i.toNat i.toNat (Nat.le_refl _)
    rw [ha] at hd hdig hval
    have hadig : isDigitChar a = true := hdig a (List.mem_cons_self a as)
    rw [canonicalDecimal, hd]
    have hcast : ((decValue (a :: as) : Int)) = i := by
      rw [hval]
      omega
    simp only [canonicalDecimalChars, if_neg (isDigit_ne_dash hadig), Bool.and_eq_true,
      decide_eq_true_eq, List.all_eq_true]
    refine ⟨⟨⟨hi, hdig⟩, ?_⟩, hcast⟩
    by_cases haz : a = '0'
    · rw [if_pos haz]
      have hz : i.toNat = 0 := by
        by_contra hnz
        have hl := natChars_no_leading_zero i.toNat hnz
        rw [ha, List.head?_cons] at hl
        exact hl (by rw [haz])
      have h0 : natChars i.toNat = ['0'] := by
        rw [hz]
        decide
      rw [ha] at h0
      simp only [List.cons.injEq] at h0
      simp [h0.2]
    · rw [if_neg haz]

theorem isStr_iff {k : GNode} : isStr k = true ↔ ∃ s, k = GNode.str s := by
  cases k <;> simp [isStr]

theorem except_bind_ok {α β : Type} (a : α) (f : α → Except String β) :
    (Except.ok a >>= f) = f a := rfl

theorem except_bind_err {α β : Type} (e : String) (f : α → Except String β) :
    ((Except.error e : Except String α) >>= f) = Except.error e := rfl

theorem except_pure {α : Type} (a : α) : (pure a : Except String α) = Except.ok a := rfl

theorem transformData_map_eq (kvs : List (GNode × GNode)) :
    transformData (.map kvs) = (transformEntries kvs []) >>= (fun o => pure (.map o)) := rfl

theorem transformData_seq_eq (xs : List GNode) :
    transformData (.seq xs) = (transformElems xs) >>= (fun o => pure (.seq o)) := rfl

theorem allStrKeysE_iff {l : List (GNode × GNode)} :
    allStrKeysE l = true ↔ ∀ p ∈ l, isStr p.1 = true ∧ allStrKeys p.2 = true := by
  induction l with
  | nil => simp [allStrKeysE]
  | cons p rest ih =>
    obtain ⟨k, v⟩ := p
    simp [allStrKeysE, ih, and_assoc]

theorem allStrKeysL_iff {l : List GNode} :
    allStrKeysL l = true ↔ ∀ x ∈ l, allStrKeys x = true := by
  induction l with
  | nil => simp [allStrKeysL]
  | cons x rest ih => simp [allStrKeysL, ih]

theorem allStrKeysE_mapSet {o : List (GNode × GNode)} {sk : String} {v : GNode}
    (ho : allStrKeysE o = true) (hv : allStrKeys v = true) :
    allStrKeysE (mapSet o sk v) = true := by
  rw [allStrKeysE_iff] at ho ⊢
  unfold mapSet
  split
  · intro p hp
    rw [List.mem_map] at hp
    obtain ⟨q, hq, rfl⟩ := hp
    by_cases h : q.1 = GNode.str sk
    · rw [if_pos h]
      exact ⟨by simp [isStr], hv⟩
    · rw [if_neg h]
      exact ho q hq
  · intro p hp
    rw [List.mem_append] at hp
    rcases hp with hp | hp
    · exact ho p hp
    · simp only [List.mem_singleton] at hp
      subst hp
      exact ⟨by simp [isStr], hv⟩

mutual

theorem transformData_allStrKeys : ∀ t u, transformData t = .ok u → allStrKeys u = true
  | .map kvs, u => by
    intro h
    rw [transformData_map_eq] at h
    cases he : transformEntries kvs [] with
    | error e =>
      rw [he, except_bind_err] at h
      exact absurd h (by simp)
    | ok o =>
      rw [he, except_bind_ok, except_pure, Except.ok.injEq] at h
      subst h
      have := transformEntries_allStrKeys kvs [] o he (by simp [allStrKeysE])
      simpa [allStrKeys] using this
  | .seq xs, u => by
    intro h
    rw [transformData_seq_eq] at h
    cases he : transformElems xs with
    | error e =>
      rw [he, except_bind_err] at h
      exact absurd h (by simp)
    | ok o =>
      rw [he, except_bind_ok, except_pure, Except.ok.injEq] at h
      subst h
      have := transformElems_allStrKeys xs o he
      simpa [allStrKeys] using this
  | .str s, u => by
    intro h
    cases h
    simp [allStrKeys]
  | .int n, u => by
    intro h
    cases h
    simp [allStrKeys]
  | .float m e, u => by
    intro h
    cases h
    simp [allStrKeys]
  | .bool b, u => by
    intro h
    cases h
    simp [allStrKeys]
  | .null, u => by
    intro h
    cases h
    simp [allStrKeys]

theorem transformEntries_allStrKeys :
    ∀ kvs acc o, transformEntries kvs acc = .ok o → allStrKeysE acc = true →
      allStrKeysE o = true
  | [], acc, o => by
    intro h hacc
    simp only [transformEntries, except_pure, Except.ok.injEq] at h
    subst h
    exact hacc
  | (k, v) :: rest, acc, o => by
    intro h hacc
    simp only [transformEntries] at h
    cases hk : coerceKey k with
    | error e =>
      rw [hk, except_bind_err] at h
      exact absurd h (by simp)
    | ok sk =>
      rw [hk, except_bind_ok] at h
      cases hv : transformData v with
      | error e =>
        rw [hv, except_bind_err] at h
        exact absurd h (by simp)
      | ok v2 =>
        rw [hv, except_bind_ok] at h
        have hv2 := transformData_allStrKeys v v2 hv
        exact transformEntries_allStrKeys rest (mapSet acc sk v2) o h
          (allStrKeysE_mapSet hacc hv2)

theorem transformElems_allStrKeys :
    ∀ xs ys, transformElems xs = .ok ys → allStrKeysL ys = true
  | [], ys => by
    intro h
    simp only [transformElems, except_pure, Except.ok.injEq] at h
    subst h
    simp [allStrKeysL]
  | x :: xs, ys => by
    intro h
    simp only [transformElems] at h
    cases hx : transformData x with
    | error e =>
      rw [hx, except_bind_err] at h
      exact absurd h (by simp)
    | ok x2 =>
      rw [hx, except_bind_ok] at h
      cases hxs : transformElems xs with
      | error e =>
        rw [hxs, except_bind_err] at h
        exact absurd h (by simp)
      | ok xs2 =>
        rw [hxs, except_bind_ok, except_pure, Except.ok.injEq] at h
        subst h
        simp only [allStrKeysL, Bool.and_eq_true]
        exact ⟨transformData_allStrKeys x x2 hx, transformElems_allStrKeys xs xs2 hxs⟩

end

theorem coerceKey_ok {k : GNode} (h : isStrOrInt k = true) :
    coerceKey k = .ok (coercedName k) := by
  cases k <;> simp_all [isStrOrInt, coerceKey, coercedName]

theorem coerceKey_err {k : GNode} (h : isStrOrInt k = false) :
    coerceKey k = .error (keyErrMsg k) := by
  cases k <;> simp_all [isStrOrInt, coerceKey]

mutual

theorem transformData_ok_of_goodKeys :
    ∀ t, goodKeys t = true → ∃ u, transformData t = .ok u
  | .map kvs => by
    intro h
    simp only [goodKeys] at h
    obtain ⟨o, ho⟩ := transformEntries_ok_of_goodKeys kvs [] h
    exact ⟨.map o, by rw [transformData_map_eq, ho, except_bind_ok, except_pure]⟩
  | .seq xs => by
    intro h
    simp only [goodKeys] at h
    obtain ⟨o, ho⟩ := transformElems_ok_of_goodKeys xs h
    exact ⟨.seq o, by rw [transformData_seq_eq, ho, except_bind_ok, except_pure]⟩
  | .str s => fun _ => ⟨.str s, rfl⟩
  | .int n => fun _ => ⟨.int n, rfl⟩
  | .float m e => fun _ => ⟨.float m e, rfl⟩
  | .bool b => fun _ => ⟨.bool b, rfl⟩
  | .null => fun _ => ⟨.null, rfl⟩

theorem transformEntries_ok_of_goodKeys :
    ∀ kvs acc, goodKeysE kvs = true → ∃ o, transformEntries kvs acc = .ok o
  | [], acc => fun _ => ⟨acc, rfl⟩
  | (k, v) :: rest, acc => by
    intro h
    simp only [goodKeysE, Bool.and_eq_true] at h
    obtain ⟨⟨hk, hv⟩, hrest⟩ := h
    obtain ⟨v2, hv2⟩ := transformData_ok_of_goodKeys v hv
    obtain ⟨o, ho⟩ := transformEntries_ok_of_goodKeys rest (mapSet acc (coercedName k) v2) hrest
    refine ⟨o, ?_⟩
    simp only [transformEntries]
    rw [coerceKey_ok hk, except_bind_ok, hv2, except_bind_ok]
    exact ho

theorem transformElems_ok_of_goodKeys :
    ∀ xs, goodKeysL xs = true → ∃ ys, transformElems xs = .ok ys
  | [] => fun _ => ⟨[], rfl⟩
  | x :: xs => by
    intro h
    simp only [goodKeysL, Bool.and_eq_true] at h
    obtain ⟨x2, hx2⟩ := transformData_ok_of_goodKeys x h.1
    obtain ⟨xs2, hxs2⟩ := transformElems_ok_of_goodKeys xs h.2
    refine ⟨x2 :: xs2, ?_⟩
    simp only [transformElems]
    rw [hx2, except_bind_ok, hxs2, except_bind_ok, except_pure]

end

mutual

theorem transformData_err_of_badKey :
    ∀ t, goodKeys t = false → ∃ e, transformData t = .error e
  | .map kvs => by
    intro h
    simp only [goodKeys] at h
    obtain ⟨e, he⟩ := transformEntries_err_of_badKey kvs [] h
    exact ⟨e, by rw [transformData_map_eq, he, except_bind_err]⟩
  | .seq xs => by
    intro h
    simp only [goodKeys] at h
    obtain ⟨e, he⟩ := transformElems_err_of_badKey xs h
    exact ⟨e, by rw [transformData_seq_eq, he, except_bind_err]⟩
  | .str s => by intro h; simp [goodKeys] at h
  | .int n => by intro h; simp [goodKeys] at h
  | .float m e => by intro h; simp [goodKeys] at h
  | .bool b => by intro h; simp [goodKeys] at h
  | .null => by intro h; simp [goodKeys] at h

theorem transformEntries_err_of_badKey :
    ∀ kvs acc, goodKeysE kvs = false → ∃ e, transformEntries kvs acc = .error e
  | [], _ => by intro h; simp [goodKeysE] at h
  | (k, v) :: rest, acc => by
    intro h
    simp only [goodKeysE, Bool.and_eq_false_iff] at h
    by_cases hk : isStrOrInt k = true
    · rcases h with (h | h) | h
      · exact absurd h (by simp [hk])
      · obtain ⟨e, he⟩ := transformData_err_of_badKey v h
        refine ⟨e, ?_⟩
        simp only [transformEntries]
        rw [coerceKey_ok hk, except_bind_ok, he, except_bind_err]
      · rcases hgv : goodKeys v with hf | ht
        · obtain ⟨e, he⟩ := transformData_err_of_badKey v hgv
          refine ⟨e, ?_⟩
          simp only [transformEntries]
          rw [coerceKey_ok hk, except_bind_ok, he, except_bind_err]
        · obtain ⟨v2, hv2⟩ := transformData_ok_of_goodKeys v hgv
          obtain ⟨e, he⟩ := transformEntries_err_of_badKey rest
            (mapSet acc (coercedName k) v2) h
          refine ⟨e, ?_⟩
          simp only [transformEntries]
          rw [coerceKey_ok hk, except_bind_ok, hv2, except_bind_ok]
          exact he
    · rw [Bool.not_eq_true] at hk
      refine ⟨keyErrMsg k, ?_⟩
      simp only [transformEntries]
      rw [coerceKey_err hk, except_bind_err]

theorem transformElems_err_of_badKey :
    ∀ xs, goodKeysL xs = false → ∃ e, transformElems xs = .error e
  | [] => by intro h; simp [goodKeysL] at h
  | x :: xs => by
    intro h
    simp only [goodKeysL, Bool.and_eq_false_iff] at h
    rcases hgx : goodKeys x with hf | ht
    · obtain ⟨e, he⟩ := transformData_err_of_badKey x hgx
      refine ⟨e, ?_⟩
      simp only [transformElems]
      rw [he, except_bind_err]
    · obtain ⟨x2, hx2⟩ := transformData_ok_of_goodKeys x hgx
      have hxs : goodKeysL xs = false := by
        rcases h with h | h
        · exact absurd hgx (by simp [h])
        · exact h
      obtain ⟨e, he⟩ := transformElems_err_of_badKey xs hxs
      refine ⟨e, ?_⟩
      simp only [transformElems]
      rw [hx2, except_bind_ok, he, except_bind_err]

end

theorem coerceKey_err_inv {k : GNode} {e : String} (h : coerceKey k = .error e) :
    isStrOrInt k = false ∧ e = keyErrMsg k := by
  cases k <;> simp_all [coerceKey, isStrOrInt]

mutual

theorem transformData_err_msg :
    ∀ t e, transformData t = .error e →
      ∃ k, keyOccurs k t = true ∧ isStrOrInt k = false ∧ e = keyErrMsg k
  | .map kvs, e => by
    intro h
    rw [transformData_map_eq] at h
    cases he : transformEntries kvs [] with
    | error e2 =>
      rw [he, except_bind_err, Except.error.injEq] at h
      subst h
      obtain ⟨k, hk⟩ := transformEntries_err_msg kvs [] e2 he
      exact ⟨k, by simpa [keyOccurs] using hk⟩
    | ok o =>
      rw [he, except_bind_ok, except_pure] at h
      exact absurd h (by simp)
  | .seq xs, e => by
    intro h
    rw [transformData_seq_eq] at h
    cases he : transformElems xs with
    | error e2 =>
      rw [he, except_bind_err, Except.error.injEq] at h
      subst h
      obtain ⟨k, hk⟩ := transformElems_err_msg xs e2 he
      exact ⟨k, by simpa [keyOccurs] using hk⟩
    | ok o =>
      rw [he, except_bind_ok, except_pure] at h
      exact absurd h (by simp)
  | .str s, e => by intro h; exact absurd h (by simp [transformData, except_pure])
  | .int n, e => by intro h; exact absurd h (by simp [transformData, except_pure])
  | .float m e2, e => by intro h; exact absurd h (by simp [transformData, except_pure])
  | .bool b, e => by intro h; exact absurd h (by simp [transformData, except_pure])
  | .null, e => by intro h; exact absurd h (by simp [transformData, except_pure])

theorem transformEntries_err_msg :
    ∀ kvs acc e, transformEntries kvs acc = .error e →
      ∃ k, keyOccursE k kvs = true ∧ isStrOrInt k = false ∧ e = keyErrMsg k
  | [], acc, e => by
    intro h
    exact absurd h (by simp [transformEntries, except_pure])
  | (k, v) :: rest, acc, e => by
    intro h
    simp only [transformEntries] at h
    cases hk : coerceKey k with
    | error e1 =>
      rw [hk, except_bind_err, Except.error.injEq] at h
      subst h
      obtain ⟨hbad, hmsg⟩ := coerceKey_err_inv hk
      exact ⟨k, by simp [keyOccursE], hbad, hmsg⟩
    | ok sk =>
      rw [hk, except_bind_ok] at h
      cases hv : transformData v with
      | error e1 =>
        rw [hv, except_bind_err, Except.error.injEq] at h
        subst h
        obtain ⟨k2, hocc, hbad, hmsg⟩ := transformData_err_msg v e1 hv
        exact ⟨k2, by simp [keyOccursE, hocc], hbad, hmsg⟩
      | ok v2 =>
        rw [hv, except_bind_ok] at h
        obtain ⟨k2, hocc, hbad, hmsg⟩ :=
          transformEntries_err_msg rest (mapSet acc sk v2) e h
        exact ⟨k2, by simp [keyOccursE, hocc], hbad, hmsg⟩

theorem transformElems_err_msg :
    ∀ xs e, transformElems xs = .error e →
      ∃ k, keyOccursL k xs = true ∧ isStrOrInt k = false ∧ e = keyErrMsg k
  | [], e => by
    intro h
    exact absurd h (by simp [transformElems, except_pure])
  | x :: xs, e => by
    intro h
    simp only [transformElems] at h
    cases hx : transformData x with
    | error e1 =>
      rw [hx, except_bind_err, Except.error.injEq] at h
      subst h
      obtain ⟨k, hocc, hbad, hmsg⟩ := transformData_err_msg x e1 hx
      exact ⟨k, by simp [keyOccursL, hocc], hbad, hmsg⟩
    | ok x2 =>
      rw [hx, except_bind_ok] at h
      cases hxs : transformElems xs with
      | error e1 =>
        rw [hxs, except_bind_err, Except.error.injEq] at h
        subst h
        obtain ⟨k, hocc, hbad, hmsg⟩ := transformElems_err_msg xs e1 hxs
        exact ⟨k, by simp [keyOccursL, hocc], hbad, hmsg⟩
      | ok xs2 =>
        rw [hxs, except_bind_ok, except_pure] at h
        exact absurd h (by simp)

end

theorem nodupB_cons {α : Type} [DecidableEq α] {x : α} {xs : List α} :
    nodupB (x :: xs) = true ↔ x ∉ xs ∧ nodupB xs = true := by
  simp only [nodupB, Bool.and_eq_true, Bool.not_eq_true', List.any_eq_false,
    decide_eq_true_eq]
  constructor
  · rintro ⟨h1, h2⟩
    exact ⟨fun hm => h1 x hm rfl, h2⟩
  · rintro ⟨h1, h2⟩
    exact ⟨fun y hy he => h1 (he ▸ hy), h2⟩

theorem transformElems_forall2 :
    ∀ xs ys, transformElems xs = .ok ys →
      List.Forall₂ (fun x y => transformData x = .ok y) xs ys := by
  intro xs
  induction xs with
  | nil =>
    intro ys h
    simp only [transformElems, except_pure, Except.ok.injEq] at h
    subst h
    exact List.Forall₂.nil
  | cons x xs ih =>
    intro ys h
    simp only [transformElems] at h
    cases hx : transformData x with
    | error e =>
      rw [hx, except_bind_err] at h
      exact absurd h (by simp)
    | ok x2 =>
      rw [hx, except_bind_ok] at h
      cases hxs : transformElems xs with
      | error e =>
        rw [hxs, except_bind_err] at h
        exact absurd h (by simp)
      | ok xs2 =>
        rw [hxs, except_bind_ok, except_pure, Except.ok.injEq] at h
        subst h
        exact List.Forall₂.cons hx (ih xs2 hxs)

theorem mapSet_fresh {acc : List (GNode × GNode)} {sk : String} {v : GNode}
    (h : GNode.str sk ∉ acc.map Prod.fst) :
    mapSet acc sk v = acc ++ [(GNode.str sk, v)] := by
  unfold mapSet
  rw [if_neg]
  simp only [List.any_eq_true, decide_eq_true_eq, not_exists, not_and]
  intro p hp he
  exact h (by rw [← he]; exact List.mem_map_of_mem Prod.fst hp)

mutual

theorem transformData_eq_mapKeysToStr :
    ∀ t, goodKeys t = true → coercedNodup t = true →
      transformData t = .ok (mapKeysToStr t)
  | .map kvs => by
    intro hg hn
    simp only [goodKeys] at hg
    simp only [coercedNodup, Bool.and_eq_true] at hn
    have he := transformEntries_eq_mapKeysToStr kvs [] hg hn.2 hn.1 (by simp)
    rw [transformData_map_eq, he, except_bind_ok, except_pure]
    simp [mapKeysToStr]
  | .seq xs => by
    intro hg hn
    simp only [goodKeys] at hg
    simp only [coercedNodup] at hn
    have he := transformElems_eq_mapKeysToStr xs hg hn
    rw [transformData_seq_eq, he, except_bind_ok, except_pure]
    simp [mapKeysToStr]
  | .str s => fun _ _ => rfl
  | .int n => fun _ _ => rfl
  | .float m e => fun _ _ => rfl
  | .bool b => fun _ _ => rfl
  | .null => fun _ _ => rfl

theorem transformEntries_eq_mapKeysToStr :
    ∀ kvs acc, goodKeysE kvs = true → coercedNodupE kvs = true →
      nodupB (kvs.map (fun p => coercedName p.1)) = true →
      (∀ p ∈ kvs, GNode.str (coercedName p.1) ∉ acc.map Prod.fst) →
      transformEntries kvs acc = .ok (acc ++ mapKeysToStrE kvs)
  | [], acc => by
    intro _ _ _ _
    simp [transformEntries, mapKeysToStrE, except_pure]
  | (k, v) :: rest, acc => by
    intro hg hn hnod hdisj
    simp only [goodKeysE, Bool.and_eq_true] at hg
    obtain ⟨⟨hk, hv⟩, hrest⟩ := hg
    simp only [coercedNodupE, Bool.and_eq_true] at hn
    simp only [List.map_cons, nodupB_cons] at hnod
    simp only [transformEntries]
    rw [coerceKey_ok hk, except_bind_ok,
      transformData_eq_mapKeysToStr v hv hn.1, except_bind_ok]
    rw [mapSet_fresh (hdisj (k, v) (List.mem_cons_self _ _))]
    have hrec := transformEntries_eq_mapKeysToStr rest (acc ++ [(GNode.str (coercedName k), mapKeysToStr v)])
      hrest hn.2 hnod.2 ?_
    · rw [hrec, mapKeysToStrE]
      simp
    · intro p hp
      simp only [List.map_append, List.map_cons, List.map_nil, List.mem_append,
        List.mem_singleton, not_or]
      refine ⟨hdisj p (List.mem_cons_of_mem _ hp), ?_⟩
      intro he
      simp only [GNode.str.injEq] at he
      exact hnod.1 (he ▸ List.mem_map_of_mem (fun p => coercedName p.1) hp)

theorem transformElems_eq_mapKeysToStr :
    ∀ xs, goodKeysL xs = true → coercedNodupL xs = true →
      transformElems xs = .ok (mapKeysToStrL xs)
  | [] => fun _ _ => rfl
  | x :: xs => by
    intro hg hn
    simp only [goodKeysL, Bool.and_eq_true] at hg
    simp only [coercedNodupL, Bool.and_eq_true] at hn
    simp only [transformElems]
    rw [transformData_eq_mapKeysToStr x hg.1 hn.1, except_bind_ok,
      transformElems_eq_mapKeysToStr xs hg.2 hn.2, except_bind_ok, except_pure,
      mapKeysToStrL]

end

theorem isStrOrInt_of_isStr {k : GNode} (h : isStr k = true) : isStrOrInt k = true := by
  cases k <;> simp_all [isStr, isStrOrInt]

mutual

theorem goodKeys_of_allStrKeys : ∀ t, allStrKeys t = true → goodKeys t = true
  | .map kvs => by
    intro h
    simp only [allStrKeys] at h
    simpa [goodKeys] using goodKeysE_of_allStrKeysE kvs h
  | .seq xs => by
    intro h
    simp only [allStrKeys] at h
    simpa [goodKeys] using goodKeysL_of_allStrKeysL xs h
  | .str s => fun _ => rfl
  | .int n => fun _ => rfl
  | .float m e => fun _ => rfl
  | .bool b => fun _ => rfl
  | .null => fun _ => rfl

theorem goodKeysE_of_allStrKeysE :
    ∀ kvs, allStrKeysE kvs = true → goodKeysE kvs = true
  | [] => fun _ => rfl
  | (k, v) :: rest => by
    intro h
    simp only [allStrKeysE, Bool.and_eq_true] at h
    simp only [goodKeysE, Bool.and_eq_true]
    exact ⟨⟨isStrOrInt_of_isStr h.1.1, goodKeys_of_allStrKeys v h.1.2⟩,
      goodKeysE_of_allStrKeysE rest h.2⟩

theorem goodKeysL_of_allStrKeysL :
    ∀ xs, allStrKeysL xs = true → goodKeysL xs = true
  | [] => fun _ => rfl
  | x :: xs => by
    intro h
    simp only [allStrKeysL, Bool.and_eq_true] at h
    simp only [goodKeysL, Bool.and_eq_true]
    exact ⟨goodKeys_of_allStrKeys x h.1, goodKeysL_of_allStrKeysL xs h.2⟩

end

mutual

theorem mapKeysToStr_id : ∀ t, allStrKeys t = true → mapKeysToStr t = t
  | .map kvs => by
    intro h
    simp only [allStrKeys] at h
    simp only [mapKeysToStr, GNode.map.injEq]
    exact mapKeysToStrE_id kvs h
  | .seq xs => by
    intro h
    simp only [allStrKeys] at h
    simp only [mapKeysToStr, GNode.seq.injEq]
    exact mapKeysToStrL_id xs h
  | .str s => fun _ => rfl
  | .int n => fun _ => rfl
  | .float m e => fun _ => rfl
  | .bool b => fun _ => rfl
  | .null => fun _ => rfl

theorem mapKeysToStrE_id : ∀ kvs, allStrKeysE kvs = true → mapKeysToStrE kvs = kvs
  | [] => fun _ => rfl
  | (k, v) :: rest => by
    intro h
    simp only [allStrKeysE, Bool.and_eq_true] at h
    obtain ⟨⟨hk, hv⟩, hrest⟩ := h
    obtain ⟨s, rfl⟩ := isStr_iff.mp hk
    simp only [mapKeysToStrE, coercedName, List.cons.injEq]
    exact ⟨by rw [mapKeysToStr_id v hv], mapKeysToStrE_id rest hrest⟩

theorem mapKeysToStrL_id : ∀ xs, allStrKeysL xs = true → mapKeysToStrL xs = xs
  | [] => fun _ => rfl
  | x :: xs => by
    intro h
    simp only [allStrKeysL, Bool.and_eq_true] at h
    simp only [mapKeysToStrL, List.cons.injEq]
    exact ⟨mapKeysToStr_id x h.1, mapKeysToStrL_id xs h.2⟩

end

theorem nodup_coerced_of_nodup_keys :
    ∀ kvs : List (GNode × GNode), (∀ p ∈ kvs, isStr p.1 = true) →
      nodupB (kvs.map Prod.fst) = true →
      nodupB (kvs.map (fun p => coercedName p.1)) = true := by
  intro kvs
  induction kvs with
  | nil => intro _ _; rfl
  | cons p rest ih =>
    intro hstr hnod
    simp only [List.map_cons, nodupB_cons] at hnod ⊢
    refine ⟨?_, ih (fun q hq => hstr q (List.mem_cons_of_mem _ hq)) hnod.2⟩
    intro hmem
    rw [List.mem_map] at hmem
    obtain ⟨q, hq, he⟩ := hmem
    obtain ⟨s, hs⟩ := isStr_iff.mp (hstr p (List.mem_cons_self _ _))
    obtain ⟨s2, hs2⟩ := isStr_iff.mp (hstr q (List.mem_cons_of_mem _ hq))
    rw [hs, hs2] at he
    simp only [coercedName] at he
    apply hnod.1
    rw [he] at hs2
    rw [hs, ← hs2]
    exact List.mem_map_of_mem Prod.fst hq

mutual

theorem coercedNodup_of_wf : ∀ t, wfKeys t = true → allStrKeys t = true → coercedNodup t = true
  | .map kvs => by
    intro hw hs
    simp only [wfKeys, Bool.and_eq_true] at hw
    simp only [allStrKeys] at hs
    simp only [coercedNodup, Bool.and_eq_true]
    refine ⟨?_, coercedNodupE_of_wf kvs hw.2 hs⟩
    exact nodup_coerced_of_nodup_keys kvs
      (fun p hp => ((allStrKeysE_iff).mp hs p hp).1) hw.1
  | .seq xs => by
    intro hw hs
    simp only [wfKeys] at hw
    simp only [allStrKeys] at hs
    simpa [coercedNodup] using coercedNodupL_of_wf xs hw hs
  | .str s => fun _ _ => rfl
  | .int n => fun _ _ => rfl
  | .float m e => fun _ _ => rfl
  | .bool b => fun _ _ => rfl
  | .null => fun _ _ => rfl

theorem coercedNodupE_of_wf :
    ∀ kvs, wfKeysE kvs = true → allStrKeysE kvs = true → coercedNodupE kvs = true
  | [] => fun _ _ => rfl
  | (k, v) :: rest => by
    intro hw hs
    simp only [wfKeysE, Bool.and_eq_true] at hw
    simp only [allStrKeysE, Bool.and_eq_true] at hs
    simp only [coercedNodupE, Bool.and_eq_true]
    exact ⟨coercedNodup_of_wf v hw.1 hs.1.2, coercedNodupE_of_wf rest hw.2 hs.2⟩

theorem coercedNodupL_of_wf :
    ∀ xs, wfKeysL xs = true → allStrKeysL xs = true → coercedNodupL xs = true
  | [] => fun _ _ => rfl
  | x :: xs => by
    intro hw hs
    simp only [wfKeysL, Bool.and_eq_true] at hw
    simp only [allStrKeysL, Bool.and_eq_true] at hs
    simp only [coercedNodupL, Bool.and_eq_true]
    exact ⟨coercedNodup_of_wf x hw.1 hs.1, coercedNodupL_of_wf xs hw.2 hs.2⟩

end

theorem transformData_id (t : GNode) (hw : wfKeys t = true) (hs : allStrKeys t = true) :
    transformData t = .ok t := by
  rw [transformData_eq_mapKeysToStr t (goodKeys_of_allStrKeys t hs)
    (coercedNodup_of_wf t hw hs), mapKeysToStr_id t hs]

theorem safeRest_nil : safeRest [] := by
  intro c hc
  simp at hc

theorem safeRest_comma (cs : List Char) : safeRest (commaChar :: cs) := by
  intro c hc
  simp only [List.head?_cons, Option.some.injEq] at hc
  exact Or.inl hc.symm

theorem safeRest_rbrack (cs : List Char) : safeRest (rbrackChar :: cs) := by
  intro c hc
  simp only [List.head?_cons, Option.some.injEq] at hc
  exact Or.inr (Or.inl hc.symm)

theorem safeRest_rbrace (cs : List Char) : safeRest (rbraceChar :: cs) := by
  intro c hc
  simp only [List.head?_cons, Option.some.injEq] at hc
  exact Or.inr (Or.inr hc.symm)

theorem safeRest_head_not_digit {cs : List Char} (h : safeRest cs) :
    ∀ c, cs.head? = some c → isDigitChar c = false ∧ ¬c = 'e' ∧ ¬c = '-' := by
  intro c hc
  rcases h c hc with rfl | rfl | rfl <;> exact ⟨by decide, by decide, by decide⟩

theorem string_mk_data : ∀ s : String, String.mk s.data = s
  | ⟨_⟩ => rfl

theorem hexVal_hexDigitChar : ∀ d, d < 16 → hexVal (hexDigitChar d) = some d := by decide

theorem char_lt32_facts :
    ∀ n, n < 32 → ¬Char.ofNat n = quoteChar ∧ ¬Char.ofNat n = backslashChar := by decide

theorem escChar_length_pos (c : Char) : 1 ≤ (escChar c).length := by
  unfold escChar
  split
  · simp
  · split
    · simp
    · split
      · simp
      · simp

theorem escapeChars_length (s : List Char) : s.length ≤ (escapeChars s).length := by
  induction s with
  | nil => simp [escapeChars]
  | cons c cs ih =>
    simp only [escapeChars, List.length_cons, List.length_append]
    have := escChar_length_pos c
    omega

theorem bs_ne_quote : ¬backslashChar = quoteChar := by decide

theorem u_ne_quote : ¬('u' = quoteChar) := by decide

theorem u_ne_bs : ¬('u' = backslashChar) := by decide

theorem parseStrBody_escape (s : List Char) :
    ∀ fuel rest, s.length < fuel →
      parseStrBodyF fuel (escapeChars s ++ (quoteChar :: rest)) = some (s, rest) := by
  induction s with
  | nil =>
    intro fuel rest hf
    match fuel with
    | f + 1 => simp [escapeChars, parseStrBodyF]
  | cons c cs ih =>
    intro fuel rest hf
    match fuel with
    | f + 1 =>
      have hcs : cs.length < f := by
        simp only [List.length_cons] at hf
        omega
      show parseStrBodyF (f + 1) (escChar c ++ escapeChars cs ++ (quoteChar :: rest)) = _
      by_cases hq : c = quoteChar
      · subst hq
        simp only [escChar, eq_self_iff_true, ite_true, eq_false bs_ne_quote, ite_false,
          List.cons_append, List.nil_append, List.append_assoc, parseStrBodyF,
          ih f rest hcs, mapConsChar]
      · by_cases hb : c = backslashChar
        · subst hb
          rw [escChar, if_neg bs_ne_quote, if_pos rfl]
          simp only [eq_self_iff_true, ite_true, eq_false bs_ne_quote, ite_false,
            List.cons_append, List.nil_append, List.append_assoc, parseStrBodyF,
            ih f rest hcs, mapConsChar]
        · by_cases hc : c.toNat < 32
          · rw [escChar, if_neg hq, if_neg hb, if_pos hc]
            have e0 : hexVal '0' = some 0 := by decide
            have e1 : hexVal (hexDigitChar (c.toNat / 16)) = some (c.toNat / 16) :=
              hexVal_hexDigitChar _ (by omega)
            have e2 : hexVal (hexDigitChar (c.toNat % 16)) = some (c.toNat % 16) :=
              hexVal_hexDigitChar _ (by omega)
            simp only [eq_self_iff_true, ite_true, eq_false bs_ne_quote,
              eq_false u_ne_quote, eq_false u_ne_bs, ite_false,
              List.cons_append, List.nil_append, List.append_assoc, parseStrBodyF,
              e0, e1, e2, ih f rest hcs, mapConsChar]
            have hn : ((0 * 16 + 0) * 16 + c.toNat / 16) * 16 + c.toNat % 16 = c.toNat := by
              omega
            rw [hn, Char.ofNat_toNat]
          · rw [escChar, if_neg hq, if_neg hb, if_neg hc]
            simp only [List.cons_append, List.nil_append]
            simp only [parseStrBodyF, eq_false hq, eq_false hb, ite_false,
              ih f rest hcs, mapConsChar]

theorem readDigits_exact (ds : List Char) (rest : List Char)
    (hds : ∀ c ∈ ds, isDigitChar c = true)
    (hrest : ∀ c, rest.head? = some c → isDigitChar c = false) :
    readDigits (ds ++ rest) = (ds, rest) := by
  induction ds with
  | nil =>
    match rest with
    | [] => rfl
    | c :: cs =>
      have := hrest c (by simp)
      simp [readDigits, this]
  | cons c cs ih =>
    have hc := hds c (List.mem_cons_self _ _)
    simp only [List.cons_append, readDigits, hc, if_pos, List.append_eq]
    rw [ih (fun d hd => hds d (List.mem_cons_of_mem _ hd))]

theorem natChars_head_digit (n : Nat) :
    ∀ c, (natChars n).head? = some c → isDigitChar c = true := by
  intro c hc
  obtain ⟨a, as, ha⟩ := List.exists_cons_of_ne_nil (natChars_ne_nil n)
  rw [ha, List.head?_cons, Option.some.injEq] at hc
  exact hc ▸ natChars_all_digit n a (ha ▸ List.mem_cons_self _ _)

theorem natChars_isEmpty_false (n : Nat) : (natChars n).isEmpty = false := by
  cases hh : natChars n with
  | nil => exact absurd hh (natChars_ne_nil n)
  | cons a as => rfl

theorem safeRest_ne_e {rest : List Char} (hrest : safeRest rest) :
    ∀ c cs4, rest = c :: cs4 → ¬c = 'e' := by
  intro c cs4 he
  exact (safeRest_head_not_digit hrest c (by rw [he, List.head?_cons])).2.1

theorem intChars_neg (i : Int) (h : i < 0) :
    intChars i = '-' :: natChars (-i).toNat := by
  simp [intChars, if_pos h]

theorem intChars_nonneg (i : Int) (h : ¬i < 0) : intChars i = natChars i.toNat := by
  simp [intChars, if_neg h]

theorem readDigits_natChars (n : Nat) (rest : List Char)
    (hrest : ∀ c, rest.head? = some c → isDigitChar c = false) :
    readDigits (natChars n ++ rest) = (natChars n, rest) :=
  readDigits_exact (natChars n) rest (natChars_all_digit n) hrest

theorem decValue_cast_neg (i : Int) (h : i < 0) : -((decValue (natChars (-i).toNat) : Nat) : Int) = i := by
  rw [decValue_natChars]
  omega

theorem decValue_cast_nonneg (i : Int) (h : ¬i < 0) : ((decValue (natChars i.toNat) : Nat) : Int) = i := by
  rw [decValue_natChars]
  omega

theorem e_not_digit : isDigitChar 'e' = false := by decide

theorem parseNumber_int (i : Int) (rest : List Char) (hrest : safeRest rest) :
    parseNumber (intChars i ++ rest) = some (.int i, rest) := by
  have hnext : ∀ c, rest.head? = some c → isDigitChar c = false :=
    fun c hc => (safeRest_head_not_digit hrest c hc).1
  have hfin : ∀ p : Option (GNode × List Char), p = some (.int i, rest) → p = some (.int i, rest) :=
    fun p hp => hp
  by_cases hi : i < 0
  · rw [intChars_neg i hi, List.cons_append]
    cases rest with
    | nil =>
      simp only [parseNumber, eq_self_iff_true, ite_true,
        readDigits_natChars _ _ hnext, natChars_isEmpty_false, Bool.false_eq_true,
        ite_false, decValue_cast_neg i hi]
    | cons c cs4 =>
      have hce : ¬c = 'e' := safeRest_ne_e hrest c cs4 rfl
      simp only [parseNumber, eq_self_iff_true, ite_true,
        readDigits_natChars _ _ hnext, natChars_isEmpty_false, Bool.false_eq_true,
        ite_false, decValue_cast_neg i hi, eq_false hce]
  · rw [intChars_nonneg i hi]
    obtain ⟨a, as, ha⟩ := List.exists_cons_of_ne_nil (natChars_ne_nil i.toNat)
    have hadig : isDigitChar a = true := natChars_head_digit i.toNat a (by rw [ha, List.head?_cons])
    have hand : ¬a = '-' := isDigit_ne_dash hadig
    rw [ha, List.cons_append]
    cases rest with
    | nil =>
      simp only [parseNumber, eq_false hand, ite_false]
      rw [← List.cons_append, ← ha, readDigits_natChars _ _ hnext]
      simp only [natChars_isEmpty_false, Bool.false_eq_true, ite_false,
        decValue_cast_nonneg i hi]
    | cons c cs4 =>
      have hce : ¬c = 'e' := safeRest_ne_e hrest c cs4 rfl
      simp only [parseNumber, eq_false hand, ite_false]
      rw [← List.cons_append, ← ha, readDigits_natChars _ _ hnext]
      simp only [natChars_isEmpty_false, Bool.false_eq_true, ite_false,
        decValue_cast_nonneg i hi, eq_false hce]

theorem head_e_not_digit (X : List Char) :
    ∀ c, ('e' :: X).head? = some c → isDigitChar c = false := by
  intro c hc
  rw [List.head?_cons, Option.some.injEq] at hc
  rw [← hc]
  exact e_not_digit

theorem readDigits_natChars_cons {n : Nat} {a : Char} {as : List Char}
    (ha : natChars n = a :: as) (rest : List Char)
    (hrest : ∀ c, rest.head? = some c → isDigitChar c = false) :
    readDigits (a :: (as ++ rest)) = (a :: as, rest) := by
  rw [← List.cons_append, ← ha]
  exact readDigits_natChars n rest hrest

theorem parseNumber_float (m ex : Int) (rest : List Char) (hrest : safeRest rest) :
    parseNumber (intChars m ++ ('e' :: (intChars ex ++ rest))) = some (.float m ex, rest) := by
  have hrnext : ∀ c, rest.head? = some c → isDigitChar c = false :=
    fun c hc => (safeRest_head_not_digit hrest c hc).1
  by_cases hm : m < 0
  · rw [intChars_neg m hm, List.cons_append]
    by_cases hx : ex < 0
    · rw [intChars_neg ex hx]
      simp only [parseNumber, eq_self_iff_true, ite_true, List.cons_append,
        readDigits_natChars _ _ (head_e_not_digit _), natChars_isEmpty_false,
        Bool.false_eq_true, ite_false, decValue_cast_neg m hm,
        readDigits_natChars _ _ hrnext, decValue_cast_neg ex hx]
    · rw [intChars_nonneg ex hx]
      obtain ⟨a2, as2, ha2⟩ := List.exists_cons_of_ne_nil (natChars_ne_nil ex.toNat)
      have hadig2 : isDigitChar a2 = true :=
        natChars_head_digit ex.toNat a2 (by rw [ha2, List.head?_cons])
      have hand2 : ¬a2 = '-' := isDigit_ne_dash hadig2
      have hdvx : ((decValue (a2 :: as2) : Nat) : Int) = ex := by
        rw [← ha2]
        exact decValue_cast_nonneg ex hx
      rw [ha2]
      simp only [parseNumber, eq_self_iff_true, ite_true, List.cons_append,
        readDigits_natChars _ _ (head_e_not_digit _), natChars_isEmpty_false,
        Bool.false_eq_true, ite_false, decValue_cast_neg m hm, eq_false hand2,
        readDigits_natChars_cons ha2 rest hrnext, List.isEmpty_cons, hdvx]
  · rw [intChars_nonneg m hm]
    obtain ⟨a, as, ha⟩ := List.exists_cons_of_ne_nil (natChars_ne_nil m.toNat)
    have hadig : isDigitChar a = true :=
      natChars_head_digit m.toNat a (by rw [ha, List.head?_cons])
    have hand : ¬a = '-' := isDigit_ne_dash hadig
    have hdvm : ((decValue (a :: as) : Nat) : Int) = m := by
      rw [← ha]
      exact decValue_cast_nonneg m hm
    rw [ha]
    by_cases hx : ex < 0
    · rw [intChars_neg ex hx]
      simp only [parseNumber, eq_self_iff_true, ite_true, List.cons_append,
        eq_false hand, ite_false,
        readDigits_natChars_cons ha _ (head_e_not_digit _), List.isEmpty_cons,
        Bool.false_eq_true, hdvm,
        readDigits_natChars _ _ hrnext, natChars_isEmpty_false, decValue_cast_neg ex hx]
    · rw [intChars_nonneg ex hx]
      obtain ⟨a2, as2, ha2⟩ := List.exists_cons_of_ne_nil (natChars_ne_nil ex.toNat)
      have hadig2 : isDigitChar a2 = true :=
        natChars_head_digit ex.toNat a2 (by rw [ha2, List.head?_cons])
      have hand2 : ¬a2 = '-' := isDigit_ne_dash hadig2
      have hdvx : ((decValue (a2 :: as2) : Nat) : Int) = ex := by
        rw [← ha2]
        exact decValue_cast_nonneg ex hx
      rw [ha2]
      simp only [parseNumber, eq_self_iff_true, ite_true, List.cons_append,
        eq_false hand, ite_false,
        readDigits_natChars_cons ha _ (head_e_not_digit _), List.isEmpty_cons,
        Bool.false_eq_true, hdvm, eq_false hand2,
        readDigits_natChars_cons ha2 rest hrnext, hdvx]

theorem intChars_head (i : Int) :
    ∃ c cs2, intChars i = c :: cs2 ∧ (isDigitChar c = true ∨ c = '-') := by
  by_cases hi : i < 0
  · exact ⟨'-', natChars (-i).toNat, intChars_neg i hi, Or.inr rfl⟩
  · obtain ⟨a, as, ha⟩ := List.exists_cons_of_ne_nil (natChars_ne_nil i.toNat)
    exact ⟨a, as, by rw [intChars_nonneg i hi, ha],
      Or.inl (natChars_head_digit i.toNat a (by rw [ha, List.head?_cons]))⟩

theorem number_head_dispatch {c : Char} (h : isDigitChar c = true ∨ c = '-') :
    ¬c = quoteChar ∧ ¬c = lbrackChar ∧ ¬c = lbraceChar ∧ ¬c = 't' ∧ ¬c = 'f' ∧ ¬c = 'n' := by
  rcases h with h | h
  · refine ⟨?_, ?_, ?_, ?_, ?_, ?_⟩ <;>
      (intro he; rw [he] at h; exact absurd h (by decide))
  · subst h
    exact ⟨by decide, by decide, by decide, by decide, by decide, by decide⟩

theorem head_not_close {c : Char} (h : isDigitChar c = true ∨ c = '-' ∨ c = quoteChar ∨
    c = lbrackChar ∨ c = lbraceChar ∨ c = 't' ∨ c = 'f' ∨ c = 'n') :
    ¬c = rbrackChar ∧ ¬c = rbraceChar := by
  rcases h with h | h | h | h | h | h | h | h
  · constructor <;> (intro he; rw [he] at h; exact absurd h (by decide))
  all_goals subst h
  all_goals exact ⟨by decide, by decide⟩

theorem emitVal_head (t : GNode) (bs : List Char) (h : emitVal t = some bs) :
    ∃ c b2, bs = c :: b2 ∧ (isDigitChar c = true ∨ c = '-' ∨ c = quoteChar ∨
      c = lbrackChar ∨ c = lbraceChar ∨ c = 't' ∨ c = 'f' ∨ c = 'n') := by
  cases t with
  | str s =>
    simp only [emitVal, Option.some.injEq] at h
    exact ⟨quoteChar, _, by rw [← h, quoteString], by simp⟩
  | int i =>
    simp only [emitVal, Option.some.injEq] at h
    obtain ⟨c, cs2, hc, hd⟩ := intChars_head i
    rcases hd with hd | hd
    · exact ⟨c, cs2, by rw [← h, hc], Or.inl hd⟩
    · exact ⟨c, cs2, by rw [← h, hc], Or.inr (Or.inl hd)⟩
  | float m e =>
    simp only [emitVal, Option.some.injEq] at h
    obtain ⟨c, cs2, hc, hd⟩ := intChars_head m
    rcases hd with hd | hd
    · exact ⟨c, cs2 ++ 'e' :: intChars e, by rw [← h, hc, List.cons_append], Or.inl hd⟩
    · exact ⟨c, cs2 ++ 'e' :: intChars e, by rw [← h, hc, List.cons_append],
        Or.inr (Or.inl hd)⟩
  | bool b =>
    cases b <;> simp only [emitVal, Option.some.injEq] at h
    · exact ⟨'f', _, h.symm, by simp⟩
    · exact ⟨'t', _, h.symm, by simp⟩
  | null =>
    simp only [emitVal, Option.some.injEq] at h
    exact ⟨'n', _, h.symm, by simp⟩
  | seq xs =>
    simp only [emitVal] at h
    cases he : emitElems xs with
    | none => rw [he] at h; exact absurd h (by simp)
    | some body =>
      rw [he] at h
      simp only [Option.some.injEq] at h
      exact ⟨lbrackChar, _, h.symm, by simp⟩
  | map kvs =>
    simp only [emitVal] at h
    cases he : emitEntries kvs with
    | none => rw [he] at h; exact absurd h (by simp)
    | some body =>
      rw [he] at h
      simp only [Option.some.injEq] at h
      exact ⟨lbraceChar, _, h.symm, by simp⟩

theorem gweight_pos (t : GNode) : 1 ≤ gweight t := by
  cases t <;> simp [gweight]

theorem parseVal_quote (f : Nat) (X : List Char) :
    parseVal (f + 1) (quoteChar :: X) =
      (match parseStrBodyF (X.length + 1) X with
       | some p => some (GNode.str (String.mk p.1), p.2)
       | none => none) := rfl

theorem parseVal_true (f : Nat) (rest : List Char) :
    parseVal (f + 1) ('t' :: 'r' :: 'u' :: 'e' :: rest) = some (.bool true, rest) := rfl

theorem parseVal_false (f : Nat) (rest : List Char) :
    parseVal (f + 1) ('f' :: 'a' :: 'l' :: 's' :: 'e' :: rest) = some (.bool false, rest) := rfl

theorem parseVal_null (f : Nat) (rest : List Char) :
    parseVal (f + 1) ('n' :: 'u' :: 'l' :: 'l' :: rest) = some (.null, rest) := rfl

theorem parseVal_lbrack (f : Nat) (d : Char) (rest2 : List Char) :
    parseVal (f + 1) (lbrackChar :: d :: rest2) =
      (if d = rbrackChar then some (.seq [], rest2)
       else
         match parseElems f (d :: rest2) with
         | some p => some (GNode.seq p.1, p.2)
         | none => none) := rfl

theorem parseVal_lbrace (f : Nat) (d : Char) (rest2 : List Char) :
    parseVal (f + 1) (lbraceChar :: d :: rest2) =
      (if d = rbraceChar then some (.map [], rest2)
       else
         match parseEntries f (d :: rest2) with
         | some p => some (GNode.map p.1, p.2)
         | none => none) := rfl

theorem parseVal_number (f : Nat) (c : Char) (X : List Char)
    (hc : isDigitChar c = true ∨ c = '-') :
    parseVal (f + 1) (c :: X) = parseNumber (c :: X) := by
  obtain ⟨h1, h2, h3, h4, h5, h6⟩ := number_head_dispatch hc
  simp only [parseVal, eq_false h1, eq_false h2, eq_false h3, eq_false h4,
    eq_false h5, eq_false h6, ite_false]

theorem emitVal_str_inv {s : String} {bs : List Char} (h : emitVal (.str s) = some bs) :
    bs = quoteString s := by
  simp only [emitVal, Option.some.injEq] at h
  exact h.symm

theorem emitVal_seq_inv {xs : List GNode} {bs : List Char} (h : emitVal (.seq xs) = some bs) :
    ∃ body, emitElems xs = some body ∧ bs = lbrackChar :: (body ++ [rbrackChar]) := by
  simp only [emitVal] at h
  cases he : emitElems xs with
  | none => rw [he] at h; exact absurd h (by simp)
  | some body =>
    rw [he] at h
    simp only [Option.some.injEq] at h
    exact ⟨body, rfl, h.symm⟩

theorem emitVal_map_inv {kvs : List (GNode × GNode)} {bs : List Char}
    (h : emitVal (.map kvs) = some bs) :
    ∃ body, emitEntries kvs = some body ∧ bs = lbraceChar :: (body ++ [rbraceChar]) := by
  simp only [emitVal] at h
  cases he : emitEntries kvs with
  | none => rw [he] at h; exact absurd h (by simp)
  | some body =>
    rw [he] at h
    simp only [Option.some.injEq] at h
    exact ⟨body, rfl, h.symm⟩

theorem emitElems_cons_inv {x : GNode} {xs : List GNode} {body : List Char}
    (h : emitElems (x :: xs) = some body) :
    ∃ bx, emitVal x = some bx ∧
      ((xs = [] ∧ body = bx) ∨
        (xs ≠ [] ∧ ∃ br, emitElems xs = some br ∧ body = bx ++ commaChar :: br)) := by
  cases xs with
  | nil =>
    simp only [emitElems] at h
    exact ⟨body, h, Or.inl ⟨rfl, rfl⟩⟩
  | cons y ys =>
    simp only [emitElems] at h
    cases hex : emitVal x with
    | none => rw [hex] at h; exact absurd h (by simp)
    | some bx =>
      rw [hex] at h
      cases her : emitElems (y :: ys) with
      | none => rw [her] at h; exact absurd h (by simp)
      | some br =>
        rw [her] at h
        simp only [Option.some.injEq] at h
        exact ⟨bx, rfl, Or.inr ⟨by simp, br, rfl, h.symm⟩⟩

theorem emitEntries_cons_inv {k v : GNode} {rest : List (GNode × GNode)} {body : List Char}
    (h : emitEntries ((k, v) :: rest) = some body) :
    ∃ s bv, k = GNode.str s ∧ emitVal v = some bv ∧
      ((rest = [] ∧ body = quoteString s ++ colonChar :: bv) ∨
        (rest ≠ [] ∧ ∃ br, emitEntries rest = some br ∧
          body = quoteString s ++ colonChar :: bv ++ commaChar :: br)) := by
  cases rest with
  | nil =>
    simp only [emitEntries] at h
    cases k with
    | str s =>
      cases hev : emitVal v with
      | none => rw [hev] at h; exact absurd h (by simp)
      | some bv =>
        rw [hev] at h
        simp only [Option.some.injEq] at h
        exact ⟨s, bv, rfl, rfl, Or.inl ⟨rfl, h.symm⟩⟩
    | int n => exact absurd h (by simp)
    | float m e => exact absurd h (by simp)
    | bool b => exact absurd h (by simp)
    | null => exact absurd h (by simp)
    | seq ys => exact absurd h (by simp)
    | map kvs2 => exact absurd h (by simp)
  | cons p rest2 =>
    simp only [emitEntries] at h
    cases k with
    | str s =>
      cases hev : emitVal v with
      | none => rw [hev] at h; exact absurd h (by simp)
      | some bv =>
        rw [hev] at h
        cases her : emitEntries (p :: rest2) with
        | none => rw [her] at h; exact absurd h (by simp)
        | some br =>
          rw [her] at h
          simp only [Option.some.injEq] at h
          exact ⟨s, bv, rfl, rfl, Or.inr ⟨by simp, br, rfl, h.symm⟩⟩
    | int n => exact absurd h (by simp)
    | float m e => exact absurd h (by simp)
    | bool b => exact absurd h (by simp)
    | null => exact absurd h (by simp)
    | seq ys => exact absurd h (by simp)
    | map kvs2 => exact absurd h (by simp)

theorem emitElems_cons_head {x : GNode} {xs : List GNode} {body : List Char}
    (h : emitElems (x :: xs) = some body) :
    ∃ c b2, body = c :: b2 ∧ ¬c = rbrackChar ∧ ¬c = rbraceChar := by
  obtain ⟨bx, hbx, hsplit⟩ := emitElems_cons_inv h
  obtain ⟨c, b2, hc, hd⟩ := emitVal_head x bx hbx
  obtain ⟨h1, h2⟩ := head_not_close hd
  rcases hsplit with ⟨_, rfl⟩ | ⟨_, br, _, rfl⟩
  · exact ⟨c, b2, hc, h1, h2⟩
  · rw [hc]
    exact ⟨c, b2 ++ commaChar :: br, by rw [List.cons_append], h1, h2⟩

theorem emitEntries_cons_head {k v : GNode} {rest : List (GNode × GNode)} {body : List Char}
    (h : emitEntries ((k, v) :: rest) = some body) :
    ∃ b2, body = quoteChar :: b2 := by
  obtain ⟨s, bv, _, _, hsplit⟩ := emitEntries_cons_inv h
  rcases hsplit with ⟨_, rfl⟩ | ⟨_, br, _, rfl⟩
  · exact ⟨_, by rw [quoteString, List.cons_append]⟩
  · exact ⟨_, by rw [quoteString, List.cons_append, List.cons_append]⟩

theorem parse_emit_all : ∀ fuel : Nat,
    (∀ t bs rest, emitVal t = some bs → gweight t < fuel → safeRest rest →
      parseVal fuel (bs ++ rest) = some (t, rest)) ∧
    (∀ xs body rest, xs ≠ [] → emitElems xs = some body → lweight xs < fuel →
      safeRest rest → parseElems fuel (body ++ (rbrackChar :: rest)) = some (xs, rest)) ∧
    (∀ kvs body rest, kvs ≠ [] → emitEntries kvs = some body → eweight kvs < fuel →
      safeRest rest → parseEntries fuel (body ++ (rbraceChar :: rest)) = some (kvs, rest)) := by
  intro fuel
  induction fuel with
  | zero =>
    refine ⟨?_, ?_, ?_⟩
    · intro t bs rest _ hw _
      omega
    · intro xs body rest _ _ hw _
      omega
    · intro kvs body rest _ _ hw _
      omega
  | succ fuel ih =>
    obtain ⟨ihP, ihQ, ihR⟩ := ih
    refine ⟨?_, ?_, ?_⟩
    · intro t bs rest hemit hw hsafe
      cases t with
      | str s =>
        rw [emitVal_str_inv hemit, quoteString]
        simp only [List.cons_append, List.append_assoc, List.singleton_append,
          List.nil_append]
        rw [parseVal_quote]
        have hlen : ∀ Z : List Char,
            s.data.length < (escapeChars s.data ++ (quoteChar :: Z)).length + 1 := by
          intro Z
          have := escapeChars_length s.data
          simp only [List.length_append, List.length_cons]
          omega
        rw [parseStrBody_escape s.data _ rest (hlen rest)]
      | int i =>
        simp only [emitVal, Option.some.injEq] at hemit
        subst hemit
        obtain ⟨c, cs2, hc, hd⟩ := intChars_head i
        rw [hc, List.cons_append, parseVal_number fuel c _ hd, ← List.cons_append, ← hc]
        exact parseNumber_int i rest hsafe
      | float m e =>
        simp only [emitVal, Option.some.injEq] at hemit
        subst hemit
        rw [List.append_assoc, List.cons_append]
        obtain ⟨c, cs2, hc, hd⟩ := intChars_head m
        rw [hc, List.cons_append, parseVal_number fuel c _ hd, ← List.cons_append, ← hc]
        exact parseNumber_float m e rest hsafe
      | bool b =>
        cases b
        · simp only [emitVal, Option.some.injEq] at hemit
          subst hemit
          simp only [List.cons_append, List.nil_append]
          exact parseVal_false fuel rest
        · simp only [emitVal, Option.some.injEq] at hemit
          subst hemit
          simp only [List.cons_append, List.nil_append]
          exact parseVal_true fuel rest
      | null =>
        simp only [emitVal, Option.some.injEq] at hemit
        subst hemit
        simp only [List.cons_append, List.nil_append]
        exact parseVal_null fuel rest
      | seq xs =>
        obtain ⟨body, hbody, rfl⟩ := emitVal_seq_inv hemit
        simp only [List.cons_append, List.append_assoc, List.singleton_append,
          List.nil_append]
        cases xs with
        | nil =>
          have hb : body = [] := by
            simp only [emitElems, Option.some.injEq] at hbody
            exact hbody.symm
          subst hb
          rw [List.nil_append, parseVal_lbrack, if_pos rfl]
        | cons x xs2 =>
          obtain ⟨c2, b2, hb2, hne1, _⟩ := emitElems_cons_head hbody
          rw [hb2, List.cons_append, parseVal_lbrack, if_neg hne1, ← List.cons_append,
            ← hb2]
          have hwq : lweight (x :: xs2) < fuel := by
            simp only [gweight] at hw
            omega
          rw [ihQ (x :: xs2) body rest (by simp) hbody hwq hsafe]
      | map kvs =>
        obtain ⟨body, hbody, rfl⟩ := emitVal_map_inv hemit
        simp only [List.cons_append, List.append_assoc, List.singleton_append,
          List.nil_append]
        cases kvs with
        | nil =>
          have hb : body = [] := by
            simp only [emitEntries, Option.some.injEq] at hbody
            exact hbody.symm
          subst hb
          rw [List.nil_append, parseVal_lbrace, if_pos rfl]
        | cons kv kvs2 =>
          obtain ⟨k, v⟩ := kv
          obtain ⟨b2, hb2⟩ := emitEntries_cons_head hbody
          have hne1 : ¬quoteChar = rbraceChar := by decide
          rw [hb2, List.cons_append, parseVal_lbrace, if_neg hne1, ← List.cons_append,
            ← hb2]
          have hwr : eweight ((k, v) :: kvs2) < fuel := by
            simp only [gweight] at hw
            omega
          rw [ihR ((k, v) :: kvs2) body rest (by simp) hbody hwr hsafe]
    · intro xs body rest hne hemit hw hsafe
      cases xs with
      | nil => exact absurd rfl hne
      | cons x xs2 =>
        obtain ⟨bx, hbx, hsplit⟩ := emitElems_cons_inv hemit
        rcases hsplit with ⟨rfl, hb⟩ | ⟨hxs2ne, br, hbr, hb⟩
        · subst hb
          have hwx : gweight x < fuel := by
            simp only [lweight] at hw
            omega
          simp only [parseElems]
          rw [ihP x _ (rbrackChar :: rest) hbx hwx (safeRest_rbrack rest)]
          simp only [if_neg (show ¬rbrackChar = commaChar by decide), eq_self_iff_true,
            ite_true]
        · subst hb
          have hwx : gweight x < fuel := by
            simp only [lweight] at hw
            omega
          have hwxs : lweight xs2 < fuel := by
            simp only [lweight] at hw
            omega
          simp only [List.append_assoc, List.cons_append]
          simp only [parseElems]
          rw [ihP x _ (commaChar :: (br ++ rbrackChar :: rest)) hbx hwx
            (safeRest_comma _)]
          simp only [eq_self_iff_true, ite_true]
          rw [ihQ xs2 br rest hxs2ne hbr hwxs hsafe]
    · intro kvs body rest hne hemit hw hsafe
      cases kvs with
      | nil => exact absurd rfl hne
      | cons kv kvs2 =>
        obtain ⟨k, v⟩ := kv
        obtain ⟨s, bv, rfl, hbv, hsplit⟩ := emitEntries_cons_inv hemit
        have hlen : ∀ Z : List Char,
            s.data.length < (escapeChars s.data ++ (quoteChar :: Z)).length + 1 := by
          intro Z
          have := escapeChars_length s.data
          simp only [List.length_append, List.length_cons]
          omega
        rcases hsplit with ⟨rfl, hb⟩ | ⟨hkvs2ne, br, hbr, hb⟩
        · subst hb
          have hwv : gweight v < fuel := by
            simp only [eweight] at hw
            omega
          rw [quoteString]
          simp only [List.cons_append, List.append_assoc, List.singleton_append,
            List.nil_append]
          simp only [parseEntries, eq_self_iff_true, ite_true]
          rw [parseStrBody_escape s.data _ _ (hlen _)]
          simp only [eq_self_iff_true, ite_true]
          rw [ihP v _ (rbraceChar :: rest) hbv hwv (safeRest_rbrace rest)]
          simp only [if_neg (show ¬rbraceChar = commaChar by decide), eq_self_iff_true,
            ite_true, string_mk_data]
        · subst hb
          have hwv : gweight v < fuel := by
            simp only [eweight] at hw
            omega
          have hwrest : eweight kvs2 < fuel := by
            simp only [eweight] at hw
            omega
          rw [quoteString]
          simp only [List.cons_append, List.append_assoc, List.singleton_append,
            List.nil_append]
          simp only [parseEntries, eq_self_iff_true, ite_true]
          rw [parseStrBody_escape s.data _ _ (hlen _)]
          simp only [eq_self_iff_true, ite_true]
          rw [ihP v _ (commaChar :: (br ++ rbraceChar :: rest)) hbv hwv
            (safeRest_comma _)]
          simp only [eq_self_iff_true, ite_true, string_mk_data]
          rw [ihR kvs2 br rest hkvs2ne hbr hwrest hsafe]

theorem intChars_ne_nil (i : Int) : intChars i ≠ [] := by
  by_cases hi : i < 0
  · rw [intChars_neg i hi]
    simp
  · rw [intChars_nonneg i hi]
    exact natChars_ne_nil _

theorem quoteString_length (s : String) :
    (quoteString s).length = (escapeChars s.data).length + 2 := by
  simp [quoteString]

mutual

theorem gweight_le_emit : ∀ t bs, emitVal t = some bs → gweight t ≤ bs.length
  | .str s, bs => by
    intro h
    rw [emitVal_str_inv h, quoteString_length]
    simp [gweight]
  | .int i, bs => by
    intro h
    simp only [emitVal, Option.some.injEq] at h
    subst h
    obtain ⟨a, as, ha⟩ := List.exists_cons_of_ne_nil (intChars_ne_nil i)
    rw [ha]
    simp [gweight]
  | .float m e, bs => by
    intro h
    simp only [emitVal, Option.some.injEq] at h
    subst h
    obtain ⟨a, as, ha⟩ := List.exists_cons_of_ne_nil (intChars_ne_nil m)
    rw [ha]
    simp [gweight]
  | .bool b, bs => by
    intro h
    cases b <;> simp only [emitVal, Option.some.injEq] at h <;> subst h <;> simp [gweight]
  | .null, bs => by
    intro h
    simp only [emitVal, Option.some.injEq] at h
    subst h
    simp [gweight]
  | .seq xs, bs => by
    intro h
    obtain ⟨body, hbody, rfl⟩ := emitVal_seq_inv h
    have := lweight_le_emit xs body hbody
    simp only [gweight, List.length_cons, List.length_append, List.length_singleton]
    omega
  | .map kvs, bs => by
    intro h
    obtain ⟨body, hbody, rfl⟩ := emitVal_map_inv h
    have := eweight_le_emit kvs body hbody
    simp only [gweight, List.length_cons, List.length_append, List.length_singleton]
    omega

theorem lweight_le_emit : ∀ xs body, emitElems xs = some body → lweight xs ≤ body.length + 1
  | [], body => by
    intro h
    simp only [emitElems, Option.some.injEq] at h
    subst h
    simp [lweight]
  | [x], body => by
    intro h
    simp only [emitElems] at h
    have := gweight_le_emit x body h
    simp only [lweight]
    omega
  | x :: y :: ys, body => by
    intro h
    simp only [emitElems] at h
    cases hex : emitVal x with
    | none => rw [hex] at h; exact absurd h (by simp)
    | some bx =>
      rw [hex] at h
      cases her : emitElems (y :: ys) with
      | none => rw [her] at h; exact absurd h (by simp)
      | some br =>
        rw [her] at h
        simp only [Option.some.injEq] at h
        subst h
        have h1 := gweight_le_emit x bx hex
        have h2 := lweight_le_emit (y :: ys) br her
        simp only [lweight, List.length_append, List.length_cons] at h2 ⊢
        omega

theorem eweight_le_emit :
    ∀ kvs body, emitEntries kvs = some body → eweight kvs ≤ body.length + 1
  | [], body => by
    intro h
    simp only [emitEntries, Option.some.injEq] at h
    subst h
    simp [eweight]
  | [(k, v)], body => by
    intro h
    obtain ⟨s, bv, rfl, hbv, hsplit⟩ := emitEntries_cons_inv h
    rcases hsplit with ⟨_, rfl⟩ | ⟨hne, _, _, _⟩
    · have := gweight_le_emit v bv hbv
      simp only [eweight, List.length_append, List.length_cons, quoteString_length]
      omega
    · exact absurd rfl hne
  | (k, v) :: p :: rest, body => by
    intro h
    obtain ⟨s, bv, rfl, hbv, hsplit⟩ := emitEntries_cons_inv h
    rcases hsplit with ⟨hnil, _⟩ | ⟨_, br, hbr, rfl⟩
    · exact absurd hnil (by simp)
    · have h1 := gweight_le_emit v bv hbv
      have h2 := eweight_le_emit (p :: rest) br hbr
      simp only [eweight, List.length_append, List.length_cons, quoteString_length] at h2 ⊢
      omega

end

mutual

theorem emitVal_total : ∀ t, allStrKeys t = true → ∃ bs, emitVal t = some bs
  | .str s => fun _ => ⟨quoteString s, rfl⟩
  | .int i => fun _ => ⟨intChars i, rfl⟩
  | .float m e => fun _ => ⟨intChars m ++ 'e' :: intChars e, rfl⟩
  | .bool true => fun _ => ⟨['t', 'r', 'u', 'e'], rfl⟩
  | .bool false => fun _ => ⟨['f', 'a', 'l', 's', 'e'], rfl⟩
  | .null => fun _ => ⟨['n', 'u', 'l', 'l'], rfl⟩
  | .seq xs => by
    intro h
    simp only [allStrKeys] at h
    obtain ⟨body, hbody⟩ := emitElems_total xs h
    refine ⟨lbrackChar :: (body ++ [rbrackChar]), ?_⟩
    simp only [emitVal, hbody]
  | .map kvs => by
    intro h
    simp only [allStrKeys] at h
    obtain ⟨body, hbody⟩ := emitEntries_total kvs h
    refine ⟨lbraceChar :: (body ++ [rbraceChar]), ?_⟩
    simp only [emitVal, hbody]

theorem emitElems_total : ∀ xs, allStrKeysL xs = true → ∃ body, emitElems xs = some body
  | [] => fun _ => ⟨[], rfl⟩
  | [x] => by
    intro h
    simp only [allStrKeysL, Bool.and_eq_true] at h
    obtain ⟨bx, hbx⟩ := emitVal_total x h.1
    exact ⟨bx, by simp only [emitElems, hbx]⟩
  | x :: y :: ys => by
    intro h
    simp only [allStrKeysL, Bool.and_eq_true] at h
    obtain ⟨bx, hbx⟩ := emitVal_total x h.1
    obtain ⟨br, hbr⟩ := emitElems_total (y :: ys) (by
      simp only [allStrKeysL, Bool.and_eq_true]
      exact h.2)
    exact ⟨bx ++ commaChar :: br, by simp only [emitElems, hbx, hbr]⟩

theorem emitEntries_total :
    ∀ kvs, allStrKeysE kvs = true → ∃ body, emitEntries kvs = some body
  | [] => fun _ => ⟨[], rfl⟩
  | [(k, v)] => by
    intro h
    simp only [allStrKeysE, Bool.and_eq_true] at h
    obtain ⟨s, rfl⟩ := isStr_iff.mp h.1.1
    obtain ⟨bv, hbv⟩ := emitVal_total v h.1.2
    exact ⟨quoteString s ++ colonChar :: bv, by simp only [emitEntries, hbv]⟩
  | (k, v) :: p :: rest => by
    intro h
    simp only [allStrKeysE, Bool.and_eq_true] at h
    obtain ⟨s, rfl⟩ := isStr_iff.mp h.1.1
    obtain ⟨bv, hbv⟩ := emitVal_total v h.1.2
    obtain ⟨br, hbr⟩ := emitEntries_total (p :: rest) (by
      simp only [allStrKeysE, Bool.and_eq_true]
      exact h.2)
    exact ⟨quoteString s ++ colonChar :: bv ++ commaChar :: br,
      by simp only [emitEntries, hbv, hbr]⟩

end

theorem insKV_perm (p : GNode × GNode) :
    ∀ l : List (GNode × GNode), (insKV p l).Perm (p :: l)
  | [] => List.Perm.refl _
  | q :: qs => by
    unfold insKV
    split
    · exact List.Perm.refl _
    · exact ((insKV_perm p qs).cons q).trans (List.Perm.swap p q qs)

theorem sortKV_perm : ∀ l : List (GNode × GNode), (sortKV l).Perm l
  | [] => List.Perm.refl _
  | p :: ps => by
    unfold sortKV
    exact (insKV_perm p (sortKV ps)).trans ((sortKV_perm ps).cons p)

theorem allStrKeysE_perm {l₁ l₂ : List (GNode × GNode)} (h : l₁.Perm l₂)
    (h1 : allStrKeysE l₁ = true) : allStrKeysE l₂ = true := by
  rw [allStrKeysE_iff] at h1 ⊢
  intro p hp
  exact h1 p (h.mem_iff.mpr hp)

theorem canonE_eq_map (kvs : List (GNode × GNode)) :
    canonE kvs = kvs.map (fun p => (p.1, canon p.2)) := by
  induction kvs with
  | nil => rfl
  | cons p rest ih =>
    obtain ⟨k, v⟩ := p
    simp [canonE, ih]

theorem canonL_eq_map (xs : List GNode) : canonL xs = xs.map canon := by
  induction xs with
  | nil => rfl
  | cons x rest ih => simp [canonL, ih]

mutual

theorem allStrKeys_canon : ∀ t, allStrKeys t = true → allStrKeys (canon t) = true
  | .map kvs => by
    intro h
    simp only [allStrKeys] at h ⊢
    simp only [canon]
    exact allStrKeysE_perm (sortKV_perm (canonE kvs)).symm
      (allStrKeysE_canonE kvs h)
  | .seq xs => by
    intro h
    simp only [allStrKeys] at h ⊢
    simp only [canon]
    exact allStrKeysL_canonL xs h
  | .str s => fun _ => rfl
  | .int n => fun _ => rfl
  | .float m e => fun _ => rfl
  | .bool b => fun _ => rfl
  | .null => fun _ => rfl

theorem allStrKeysE_canonE :
    ∀ kvs, allStrKeysE kvs = true → allStrKeysE (canonE kvs) = true
  | [] => fun _ => rfl
  | (k, v) :: rest => by
    intro h
    simp only [allStrKeysE, Bool.and_eq_true] at h
    simp only [canonE, allStrKeysE, Bool.and_eq_true]
    exact ⟨⟨h.1.1, allStrKeys_canon v h.1.2⟩, allStrKeysE_canonE rest h.2⟩

theorem allStrKeysL_canonL :
    ∀ xs, allStrKeysL xs = true → allStrKeysL (canonL xs) = true
  | [] => fun _ => rfl
  | x :: xs => by
    intro h
    simp only [allStrKeysL, Bool.and_eq_true] at h
    simp only [canonL, allStrKeysL, Bool.and_eq_true]
    exact ⟨allStrKeys_canon x h.1, allStrKeysL_canonL xs h.2⟩

end

theorem serializeJSON_total (t : GNode) (h : allStrKeys t = true) :
    ∃ bs, serializeJSON t = some bs :=
  emitVal_total (canon t) (allStrKeys_canon t h)

theorem parseJson_serialize {t : GNode} {bs : List Char}
    (h : serializeJSON t = some bs) : parseJson bs = some (canon t) := by
  unfold serializeJSON at h
  have hw := gweight_le_emit (canon t) bs h
  have hp := (parse_emit_all (bs.length + 1)).1 (canon t) bs [] h (by omega) safeRest_nil
  rw [List.append_nil] at hp
  unfold parseJson
  rw [hp]

theorem char_toNat_inj {a b : Char} (h : a.toNat = b.toNat) : a = b := by
  rw [← Char.ofNat_toNat a, ← Char.ofNat_toNat b, h]

theorem lexLe_total : ∀ a b : List Char, lexLe a b = true ∨ lexLe b a = true
  | [], _ => Or.inl rfl
  | _ :: _, [] => Or.inr rfl
  | a :: as, b :: bs => by
    simp only [lexLe]
    rcases Nat.lt_trichotomy a.toNat b.toNat with h | h | h
    · left
      rw [if_pos h]
    · rw [if_neg (by omega), if_neg (by omega), if_neg (by omega), if_neg (by omega)]
      exact lexLe_total as bs
    · right
      rw [if_pos h]

theorem lexLe_antisymm : ∀ a b : List Char, lexLe a b = true → lexLe b a = true → a = b
  | [], [] => fun _ _ => rfl
  | [], _ :: _ => fun _ h2 => absurd h2 (by simp [lexLe])
  | _ :: _, [] => fun h1 _ => absurd h1 (by simp [lexLe])
  | a :: as, b :: bs => by
    intro h1 h2
    simp only [lexLe] at h1 h2
    rcases Nat.lt_trichotomy a.toNat b.toNat with h | h | h
    · rw [if_neg (by omega), if_pos h] at h2
      exact absurd h2 (by simp)
    · rw [if_neg (by omega), if_neg (by omega)] at h1 h2
      rw [char_toNat_inj h, lexLe_antisymm as bs h1 h2]
    · rw [if_neg (by omega), if_pos h] at h1
      exact absurd h1 (by simp)

theorem lexLe_trans : ∀ a b c : List Char,
    lexLe a b = true → lexLe b c = true → lexLe a c = true
  | [], _, _ => fun _ _ => rfl
  | _ :: _, [], _ => fun h1 _ => absurd h1 (by simp [lexLe])
  | _ :: _, _ :: _, [] => fun _ h2 => absurd h2 (by simp [lexLe])
  | a :: as, b :: bs, c :: cs => by
    intro h1 h2
    simp only [lexLe] at h1 h2 ⊢
    rcases Nat.lt_trichotomy a.toNat c.toNat with h | h | h
    · rw [if_pos h]
    · rw [if_neg (by omega), if_neg (by omega)]
      rcases Nat.lt_trichotomy a.toNat b.toNat with hab | hab | hab
      · rcases Nat.lt_trichotomy b.toNat c.toNat with hbc | hbc | hbc
        · omega
        · omega
        · rw [if_neg (by omega), if_pos hbc] at h2
          exact absurd h2 (by simp)
      · rw [if_neg (by omega), if_neg (by omega)] at h1
        rw [if_neg (by omega), if_neg (by omega)] at h2
        exact lexLe_trans as bs cs h1 h2
      · rw [if_neg (by omega), if_pos hab] at h1
        exact absurd h1 (by simp)
    · rcases Nat.lt_trichotomy a.toNat b.toNat with hab | hab | hab
      · rcases Nat.lt_trichotomy b.toNat c.toNat with hbc | hbc | hbc
        · omega
        · omega
        · rw [if_neg (by omega), if_pos hbc] at h2
          exact absurd h2 (by simp)
      · rcases Nat.lt_trichotomy b.toNat c.toNat with hbc | hbc | hbc
        · omega
        · omega
        · rw [if_neg (by omega), if_pos hbc] at h2
          exact absurd h2 (by simp)
      · rw [if_neg (by omega), if_pos hab] at h1
        exact absurd h1 (by simp)

theorem keyLeB_total (p q : GNode × GNode) : keyLeB p q = true ∨ keyLeB q p = true :=
  lexLe_total _ _

theorem keyLeB_trans {p q r : GNode × GNode} (h1 : keyLeB p q = true)
    (h2 : keyLeB q r = true) : keyLeB p r = true :=
  lexLe_trans _ _ _ h1 h2

theorem string_data_inj {s t : String} (h : s.data = t.data) : s = t := by
  rw [← string_mk_data s, ← string_mk_data t, h]

theorem keyLeB_antisymm_name {p q : GNode × GNode} (h1 : keyLeB p q = true)
    (h2 : keyLeB q p = true) : strVal p.1 = strVal q.1 :=
  string_data_inj (lexLe_antisymm _ _ h1 h2)

theorem insKV_pairwise {p : GNode × GNode} :
    ∀ l : List (GNode × GNode), l.Pairwise (fun a b => keyLeB a b = true) →
      (insKV p l).Pairwise (fun a b => keyLeB a b = true)
  | [] => fun _ => List.pairwise_cons.mpr ⟨by simp, List.Pairwise.nil⟩
  | q :: qs => by
    intro h
    rw [List.pairwise_cons] at h
    unfold insKV
    split
    · rename_i hpq
      rw [List.pairwise_cons]
      refine ⟨?_, List.pairwise_cons.mpr h⟩
      intro x hx
      rcases List.mem_cons.mp hx with rfl | hx
      · exact hpq
      · exact keyLeB_trans hpq (h.1 x hx)
    · rename_i hpq
      have hqp : keyLeB q p = true := by
        rcases keyLeB_total p q with hh | hh
        · exact absurd hh hpq
        · exact hh
      rw [List.pairwise_cons]
      refine ⟨?_, insKV_pairwise qs h.2⟩
      intro x hx
      have hx2 : x ∈ p :: qs := (insKV_perm p qs).mem_iff.mp hx
      rcases List.mem_cons.mp hx2 with rfl | hx2
      · exact hqp
      · exact h.1 x hx2

theorem sortKV_pairwise :
    ∀ l : List (GNode × GNode), (sortKV l).Pairwise (fun a b => keyLeB a b = true)
  | [] => List.Pairwise.nil
  | p :: ps => by
    unfold sortKV
    exact insKV_pairwise (sortKV ps) (sortKV_pairwise ps)

theorem nodupB_iff {α : Type} [DecidableEq α] :
    ∀ l : List α, nodupB l = true ↔ l.Nodup
  | [] => by simp [nodupB]
  | x :: xs => by
    rw [nodupB_cons, List.nodup_cons, nodupB_iff xs]

theorem sorted_nodup_perm_eq :
    ∀ l₁ l₂ : List (GNode × GNode), l₁.Perm l₂ →
      l₁.Pairwise (fun a b => keyLeB a b = true) →
      l₂.Pairwise (fun a b => keyLeB a b = true) →
      nodupB (l₁.map (fun p => strVal p.1)) = true → l₁ = l₂
  | [], l₂ => fun h _ _ _ => (h.symm.eq_nil).symm
  | p :: t₁, [] => fun h _ _ _ => h.eq_nil
  | p :: t₁, q :: t₂ => by
    intro h hs1 hs2 hn
    rw [List.pairwise_cons] at hs1 hs2
    rw [List.map_cons, nodupB_cons] at hn
    have hpq : p = q := by
      by_contra hpq
      have hpin : p ∈ t₂ := by
        rcases List.mem_cons.mp (h.mem_iff.mp (List.mem_cons_self p t₁)) with he | hm
        · exact absurd he hpq
        · exact hm
      have hqin : q ∈ t₁ := by
        rcases List.mem_cons.mp (h.symm.mem_iff.mp (List.mem_cons_self q t₂)) with he | hm
        · exact absurd he.symm hpq
        · exact hm
      have hname : strVal p.1 = strVal q.1 :=
        keyLeB_antisymm_name (hs1.1 q hqin) (hs2.1 p hpin)
      apply hn.1
      rw [hname]
      exact List.mem_map_of_mem (fun r => strVal r.1) hqin
    subst hpq
    have ht := sorted_nodup_perm_eq t₁ t₂ (h.cons_inv) hs1.2 hs2.2 hn.2
    rw [ht]

theorem nodupB_perm {α : Type} [DecidableEq α] {l₁ l₂ : List α} (h : l₁.Perm l₂)
    (hn : nodupB l₁ = true) : nodupB l₂ = true := by
  rw [nodupB_iff] at hn ⊢
  exact h.nodup_iff.mp hn

theorem sortKV_eq_of_perm {l₁ l₂ : List (GNode × GNode)} (h : l₁.Perm l₂)
    (hn : nodupB (l₁.map (fun p => strVal p.1)) = true) : sortKV l₁ = sortKV l₂ := by
  refine sorted_nodup_perm_eq _ _ ?_ (sortKV_pairwise l₁) (sortKV_pairwise l₂) ?_
  · exact (sortKV_perm l₁).trans (h.trans (sortKV_perm l₂).symm)
  · exact nodupB_perm ((sortKV_perm l₁).map (fun p => strVal p.1)).symm hn

mutual

theorem allStrKeys_mapKeysToStr : ∀ t, allStrKeys (mapKeysToStr t) = true
  | .map kvs => by
    simp only [mapKeysToStr, allStrKeys]
    exact allStrKeysE_mapKeysToStrE kvs
  | .seq xs => by
    simp only [mapKeysToStr, allStrKeys]
    exact allStrKeysL_mapKeysToStrL xs
  | .str s => rfl
  | .int n => rfl
  | .float m e => rfl
  | .bool b => rfl
  | .null => rfl

theorem allStrKeysE_mapKeysToStrE : ∀ kvs, allStrKeysE (mapKeysToStrE kvs) = true
  | [] => rfl
  | (k, v) :: rest => by
    simp only [mapKeysToStrE, allStrKeysE, isStr, Bool.true_and, Bool.and_eq_true]
    exact ⟨allStrKeys_mapKeysToStr v, allStrKeysE_mapKeysToStrE rest⟩

theorem allStrKeysL_mapKeysToStrL : ∀ xs, allStrKeysL (mapKeysToStrL xs) = true
  | [] => rfl
  | x :: xs => by
    simp only [mapKeysToStrL, allStrKeysL, Bool.and_eq_true]
    exact ⟨allStrKeys_mapKeysToStr x, allStrKeysL_mapKeysToStrL xs⟩

end

mutual

theorem goodKeys_keyOccurs :
    ∀ t, goodKeys t = true → ∀ k, keyOccurs k t = true → isStrOrInt k = true
  | .map kvs => by
    intro h k hk
    simp only [goodKeys] at h
    simp only [keyOccurs] at hk
    exact goodKeysE_keyOccursE kvs h k hk
  | .seq xs => by
    intro h k hk
    simp only [goodKeys] at h
    simp only [keyOccurs] at hk
    exact goodKeysL_keyOccursL xs h k hk
  | .str s => by intro _ k hk; simp [keyOccurs] at hk
  | .int n => by intro _ k hk; simp [keyOccurs] at hk
  | .float m e => by intro _ k hk; simp [keyOccurs] at hk
  | .bool b => by intro _ k hk; simp [keyOccurs] at hk
  | .null => by intro _ k hk; simp [keyOccurs] at hk

theorem goodKeysE_keyOccursE :
    ∀ kvs, goodKeysE kvs = true → ∀ k, keyOccursE k kvs = true → isStrOrInt k = true
  | [] => by intro _ k hk; simp [keyOccursE] at hk
  | (k2, v) :: rest => by
    intro h k hk
    simp only [goodKeysE, Bool.and_eq_true] at h
    simp only [keyOccursE, Bool.or_eq_true] at hk
    rcases hk with (hk | hk) | hk
    · rw [eq_of_beq hk]
      exact h.1.1
    · exact goodKeys_keyOccurs v h.1.2 k hk
    · exact goodKeysE_keyOccursE rest h.2 k hk

theorem goodKeysL_keyOccursL :
    ∀ xs, goodKeysL xs = true → ∀ k, keyOccursL k xs = true → isStrOrInt k = true
  | [] => by intro _ k hk; simp [keyOccursL] at hk
  | x :: xs => by
    intro h k hk
    simp only [goodKeysL, Bool.and_eq_true] at h
    simp only [keyOccursL, Bool.or_eq_true] at hk
    rcases hk with hk | hk
    · exact goodKeys_keyOccurs x h.1 k hk
    · exact goodKeysL_keyOccursL xs h.2 k hk

end

/-! ## The claims -/
/-- C1: the key coercion rule of `transformData` — a text-string key is
used unchanged, an integer key is rendered as its canonical base-10
decimal string (no leading zeros, sign present exactly for negative
values, digits denoting the magnitude, per `canonicalDecimal`), and a key
of any other type is a coercion failure carrying the `types don't match`
message. -/
theorem claim_C1_key_coercion :
    (∀ s, coerceKey (GNode.str s) = .ok s) ∧
    (∀ i, coerceKey (GNode.int i) = .ok (intString i) ∧
      canonicalDecimal i (intString i) = true) ∧
    (∀ k, isStrOrInt k = false → coerceKey k = .error (keyErrMsg k)) :=
  ⟨fun _ => rfl, fun i => ⟨rfl, canonicalDecimal_intString i⟩, fun _ h => coerceKey_err h⟩

theorem claim_C1_witness :
    coerceKey (GNode.str "ab") = .ok "ab" ∧
    (coerceKey (GNode.int (-7)) = .ok (intString (-7)) ∧
      canonicalDecimal (-7) (intString (-7)) = true) ∧
    coerceKey GNode.null = .error (keyErrMsg GNode.null) :=
  ⟨claim_C1_key_coercion.1 "ab", claim_C1_key_coercion.2.1 (-7),
    claim_C1_key_coercion.2.2 GNode.null (by decide)⟩

/-- C2: `transformData` fails exactly when the tree contains a mapping
key (at any depth) that is neither a string nor an int, and the error
message names the offending key's runtime type (`keyErrMsg` interpolates
`goTypeName`).  Returning `Except.error` carries no output tree, so an
erroring run produces no partial result by construction. -/
theorem claim_C2_error_iff :
    ∀ t, ((∃ e, transformData t = .error e) ↔
        (∃ k, keyOccurs k t = true ∧ isStrOrInt k = false)) ∧
      (∀ e, transformData t = .error e →
        ∃ k, keyOccurs k t = true ∧ isStrOrInt k = false ∧ e = keyErrMsg k) := by
  intro t
  refine ⟨⟨?_, ?_⟩, fun e he => transformData_err_msg t e he⟩
  · rintro ⟨e, he⟩
    obtain ⟨k, h1, h2, _⟩ := transformData_err_msg t e he
    exact ⟨k, h1, h2⟩
  · rintro ⟨k, hocc, hbad⟩
    have hg : goodKeys t = false := by
      cases hgt : goodKeys t
      · rfl
      · exact absurd (goodKeys_keyOccurs t hgt k hocc) (by simp [hbad])
    exact transformData_err_of_badKey t hg

theorem claim_C2_witness :
    (∃ e, transformData (GNode.map [(GNode.bool true, GNode.null)]) = .error e) ∧
    (∃ k, keyOccurs k (GNode.map [(GNode.bool true, GNode.null)]) = true ∧
      isStrOrInt k = false ∧
      keyErrMsg (GNode.bool true) = keyErrMsg k) :=
  ⟨(claim_C2_error_iff (GNode.map [(GNode.bool true, GNode.null)])).1.mpr
      ⟨GNode.bool true, by decide, by decide⟩,
    (claim_C2_error_iff (GNode.map [(GNode.bool true, GNode.null)])).2
      (keyErrMsg (GNode.bool true)) (by decide)⟩

/-- C4: every tree `transformData` returns successfully has only string
mapping keys, at every nesting depth. -/
theorem claim_C4_invariant :
    ∀ t u, transformData t = .ok u → allStrKeys u = true :=
  transformData_allStrKeys

theorem claim_C4_witness :
    allStrKeys (GNode.map [(GNode.str "3", GNode.seq [GNode.map [(GNode.str "0", GNode.null)]])]) = true :=
  claim_C4_invariant
    (GNode.map [(GNode.int 3, GNode.seq [GNode.map [(GNode.int 0, GNode.null)]])]) _
    (by decide)

/-- C5: a successfully transformed sequence node is again a sequence of
the same length, whose elements are, in the same positional order, the
transforms of the input's elements (`List.Forall₂` pairs them
positionwise).  Because `transformData` processes every nested sequence
through this same equation, the statement quantifies over every sequence
node at every depth. -/
theorem claim_C5_sequence_order :
    ∀ xs u, transformData (.seq xs) = .ok u →
      ∃ ys, u = .seq ys ∧ ys.length = xs.length ∧
        List.Forall₂ (fun x y => transformData x = .ok y) xs ys := by
  intro xs u h
  rw [transformData_seq_eq] at h
  cases he : transformElems xs with
  | error e =>
    rw [he, except_bind_err] at h
    exact absurd h (by simp)
  | ok ys =>
    rw [he, except_bind_ok, except_pure, Except.ok.injEq] at h
    have hf := transformElems_forall2 xs ys he
    exact ⟨ys, h.symm, hf.length_eq.symm, hf⟩

theorem claim_C5_witness :
    ∃ ys, (GNode.seq [GNode.int 7, GNode.map [(GNode.str "1", GNode.null)]] : GNode) = .seq ys ∧
      ys.length = [GNode.int 7, GNode.map [(GNode.int 1, GNode.null)]].length ∧
      List.Forall₂ (fun x y => transformData x = .ok y)
        [GNode.int 7, GNode.map [(GNode.int 1, GNode.null)]] ys :=
  claim_C5_sequence_order [GNode.int 7, GNode.map [(GNode.int 1, GNode.null)]]
    (GNode.seq [GNode.int 7, GNode.map [(GNode.str "1", GNode.null)]])
    (by decide)

/-- C6: on a tree all of whose mapping keys are already strings,
`transformData` is the identity.  `wfKeys` asks each mapping's keys to be
pairwise distinct, which every tree decoded from a Go
`map[interface{}]interface{}` satisfies (a Go map cannot hold a key
twice); the association-list embedding is more permissive, and the
hypothesis restricts the statement to the faithful images of Go
values. -/
theorem claim_C6_idempotent :
    ∀ t, wfKeys t = true → allStrKeys t = true → transformData t = .ok t :=
  transformData_id

theorem claim_C6_witness :
    transformData (GNode.map [(GNode.str "a", GNode.seq [GNode.bool true]),
        (GNode.str "b", GNode.float 1 2)]) =
      .ok (GNode.map [(GNode.str "a", GNode.seq [GNode.bool true]),
        (GNode.str "b", GNode.float 1 2)]) :=
  claim_C6_idempotent _ (by decide) (by decide)

/-- C3 (counterexample): the round-trip claim fails as stated.  The tree
`{1: "a", "1": "b"}` has only string and int mapping keys (and is a valid
Go map: its two keys are distinct values), yet the int key `1` and the
string key `"1"` coerce to the same output key, "last write wins"
collapses the mapping to one entry, and the re-parsed tree
`{"1": "b"}` is not isomorphic to the two-entry original: it differs from
the spec rewrite `canon (mapKeysToStr t)` of the input, and has one entry
where the input mapping has two. -/
theorem claim_C3_counterexample :
    goodKeys (GNode.map [(GNode.int 1, GNode.str "a"), (GNode.str "1", GNode.str "b")]) = true ∧
    wfKeys (GNode.map [(GNode.int 1, GNode.str "a"), (GNode.str "1", GNode.str "b")]) = true ∧
    transformData (GNode.map [(GNode.int 1, GNode.str "a"), (GNode.str "1", GNode.str "b")]) =
      .ok (GNode.map [(GNode.str "1", GNode.str "b")]) ∧
    serializeJSON (GNode.map [(GNode.str "1", GNode.str "b")]) =
      some ("\x7b\"1\":\"b\"\x7d".data) ∧
    parseJson ("\x7b\"1\":\"b\"\x7d".data) = some (GNode.map [(GNode.str "1", GNode.str "b")]) ∧
    ¬(GNode.map [(GNode.str "1", GNode.str "b")] =
      canon (mapKeysToStr (GNode.map [(GNode.int 1, GNode.str "a"), (GNode.str "1", GNode.str "b")]))) ∧
    ([(GNode.int 1, GNode.str "a"), (GNode.str "1", GNode.str "b")] : List (GNode × GNode)).length = 2 ∧
    ([(GNode.str "1", GNode.str "b")] : List (GNode × GNode)).length = 1 := by
  refine ⟨by decide, by decide, by decide, by decide, by decide, by decide, rfl, rfl⟩

/-- C3 (amended): for every tree with only string and int mapping keys
in which, additionally, no two keys of the same mapping coerce to the
same string, `transformData` returns exactly the spec rewrite
`mapKeysToStr t` (same shape, order and scalar values, integer keys
rendered in decimal), serialization succeeds, and re-parsing the bytes
yields `canon (mapKeysToStr t)` — the same tree up to the serializer's
key ordering inside each object, which is the isomorphism the
unordered-mapping reading of the spec asks for. -/
theorem claim_C3_roundtrip :
    ∀ t, goodKeys t = true → coercedNodup t = true →
      ∃ bs, transformData t = .ok (mapKeysToStr t) ∧
        serializeJSON (mapKeysToStr t) = some bs ∧
        parseJson bs = some (canon (mapKeysToStr t)) := by
  intro t hg hn
  obtain ⟨bs, hbs⟩ := serializeJSON_total (mapKeysToStr t) (allStrKeys_mapKeysToStr t)
  exact ⟨bs, transformData_eq_mapKeysToStr t hg hn, hbs, parseJson_serialize hbs⟩

theorem claim_C3_witness :
    ∃ bs, transformData (GNode.map [(GNode.int 1, GNode.str "a"), (GNode.str "b", GNode.int (-2))]) =
        .ok (mapKeysToStr (GNode.map [(GNode.int 1, GNode.str "a"), (GNode.str "b", GNode.int (-2))])) ∧
      serializeJSON (mapKeysToStr (GNode.map [(GNode.int 1, GNode.str "a"), (GNode.str "b", GNode.int (-2))])) = some bs ∧
      parseJson bs = some (canon (mapKeysToStr (GNode.map [(GNode.int 1, GNode.str "a"), (GNode.str "b", GNode.int (-2))]))) :=
  claim_C3_roundtrip (GNode.map [(GNode.int 1, GNode.str "a"), (GNode.str "b", GNode.int (-2))])
    (by decide) (by decide)

/-- C9: serialization is a pure function of the canonical tree.  First
conjunct: any two trees with the same key-sorted normal form — the same
unordered Go map tree — serialize to identical bytes, so repeated runs
over one document agree byte for byte.  Second conjunct: for a mapping
node, the serialized bytes do not depend on the iteration order of its
entries (any permutation, with the entry keys pairwise distinct as they
are in a map produced by `transformData`, serializes identically), which
is exactly what `json.Marshal`'s key sorting guarantees over Go's
randomized map iteration. -/
theorem claim_C9_deterministic :
    (∀ t₁ t₂ : GNode, canon t₁ = canon t₂ → serializeJSON t₁ = serializeJSON t₂) ∧
    (∀ kvs₁ kvs₂ : List (GNode × GNode), kvs₁.Perm kvs₂ →
      nodupB (kvs₁.map (fun p => strVal p.1)) = true →
      serializeJSON (.map kvs₁) = serializeJSON (.map kvs₂)) := by
  constructor
  · intro t₁ t₂ h
    unfold serializeJSON
    rw [h]
  · intro kvs₁ kvs₂ hperm hnod
    unfold serializeJSON
    simp only [canon]
    have hmapeq : sortKV (canonE kvs₁) = sortKV (canonE kvs₂) := by
      refine sortKV_eq_of_perm ?_ ?_
      · rw [canonE_eq_map, canonE_eq_map]
        exact hperm.map _
      · rw [canonE_eq_map, List.map_map]
        exact hnod
    rw [hmapeq]

theorem claim_C9_witness :
    serializeJSON (GNode.map [(GNode.str "b", GNode.int 1), (GNode.str "a", GNode.int 2)]) =
      serializeJSON (GNode.map [(GNode.str "a", GNode.int 2), (GNode.str "b", GNode.int 1)]) :=
  claim_C9_deterministic.2 [(GNode.str "b", GNode.int 1), (GNode.str "a", GNode.int 2)]
    [(GNode.str "a", GNode.int 2), (GNode.str "b", GNode.int 1)]
    (List.Perm.swap (GNode.str "a", GNode.int 2) (GNode.str "b", GNode.int 1) [])
    (by decide)

/-- C7: strategy selection is a pure function of the location string —
`LoadStrategy` returns the remote loader exactly on locations with the
`"http"` prefix and the local loader on every other location, regardless
of what the two loaders are. -/
theorem claim_C7_strategy :
    ∀ (lcl remote : String → LoadResult) (path : String),
      (strStartsWith path "http" = true → LoadStrategy path lcl remote = remote) ∧
      (strStartsWith path "http" = false → LoadStrategy path lcl remote = lcl) := by
  intro lcl remote path
  constructor
  · intro h
    unfold LoadStrategy
    rw [h]
    rfl
  · intro h
    unfold LoadStrategy
    rw [h]
    rfl

theorem claim_C7_witness :
    LoadStrategy "https://example.com/doc.yaml" (fun _ => .error "local")
        (fun _ => .error "remote") = (fun _ => .error "remote") ∧
    LoadStrategy "./doc.yaml" (fun _ => .error "local")
        (fun _ => .error "remote") = (fun _ => .error "local") :=
  ⟨(claim_C7_strategy (fun _ => .error "local") (fun _ => .error "remote")
      "https://example.com/doc.yaml").1 (by decide),
    (claim_C7_strategy (fun _ => .error "local") (fun _ => .error "remote")
      "./doc.yaml").2 (by decide)⟩

/-- C8: the network fetch issues one GET through the abstract transport
with the fixed timeout, whose default `LoadHTTPTimeout` is 30 time-units;
a transport error (connection failure or elapsed timeout) propagates as a
failure, a response whose status is not 200 fails with the
`could not access document` message naming the path and status, and a 200
response returns the full body. -/
theorem claim_C8_http :
    LoadHTTPTimeout = 30 ∧
    ∀ (timeout : Nat) (net : String → Nat → HTTPOutcome) (path : String),
      (∀ msg, net path timeout = .doError msg →
        loadHTTPBytes timeout net path = .error msg) ∧
      (∀ s txt body, net path timeout = .response s txt body →
        (s = 200 → loadHTTPBytes timeout net path = .ok body) ∧
        (s ≠ 200 → loadHTTPBytes timeout net path =
          .error ("could not access document at \"" ++ path ++ "\" [" ++ txt ++ "] "))) := by
  refine ⟨rfl, ?_⟩
  intro timeout net path
  constructor
  · intro msg h
    unfold loadHTTPBytes
    rw [h]
  · intro s txt body h
    constructor
    · intro hs
      unfold loadHTTPBytes
      rw [h]
      simp [hs]
    · intro hs
      unfold loadHTTPBytes
      rw [h]
      simp [hs]

theorem claim_C8_witness :
    loadHTTPBytes 30 (fun _ _ => .doError "dial tcp: i/o timeout") "http://h/doc.yaml" =
      .error "dial tcp: i/o timeout" ∧
    loadHTTPBytes 30 (fun _ _ => .response 200 "200 OK" [104, 105]) "http://h/doc.yaml" =
      .ok [104, 105] ∧
    loadHTTPBytes 30 (fun _ _ => .response 404 "404 Not Found" []) "http://h/doc.yaml" =
      .error ("could not access document at \"" ++ "http://h/doc.yaml" ++ "\" [" ++
        "404 Not Found" ++ "] ") :=
  ⟨((claim_C8_http.2 30 (fun _ _ => .doError "dial tcp: i/o timeout") "http://h/doc.yaml").1
      "dial tcp: i/o timeout" rfl),
    ((claim_C8_http.2 30 (fun _ _ => .response 200 "200 OK" [104, 105]) "http://h/doc.yaml").2
      200 "200 OK" [104, 105] rfl).1 rfl,
    ((claim_C8_http.2 30 (fun _ _ => .response 404 "404 Not Found" []) "http://h/doc.yaml").2
      404 "404 Not Found" [] rfl).2 (by decide)⟩

/-- C10 (counterexample): the claim fails on the code.  `bytesToYAMLDoc`
decodes into a declared `map[interface{}]interface{}`, so a byte stream
the YAML parser accepts whose root is a sequence (here the document
`[]`, abstracted as the accepted-parse outcome with root `seq []`) is
rejected with yaml.v2's type-mismatch error instead of being decoded
into a Generic Node. -/
theorem claim_C10_counterexample :
    bytesToYAMLDoc (.doc (.seq [])) = .error (yamlTypeErr (.seq [])) ∧
    exceptIsOk (bytesToYAMLDoc (.doc (.seq []))) = false := ⟨rfl, rfl⟩

/-- C10 (amended): the load-and-parse step propagates parser rejections
unchanged, and succeeds exactly on accepted documents whose root fits the
declared mapping target — a mapping root, a null root, or an empty
stream (both of which leave the target at its zero value, the nil map);
an accepted document with any other root (sequence or non-null scalar)
fails with the unmarshaler's type error naming the root's tag. -/
theorem claim_C10_amended :
    (∀ msg, bytesToYAMLDoc (.parseError msg) = .error msg) ∧
    bytesToYAMLDoc .emptyDoc = .ok (.map []) ∧
    (∀ kvs, bytesToYAMLDoc (.doc (.map kvs)) = .ok (.map kvs)) ∧
    bytesToYAMLDoc (.doc .null) = .ok (.map []) ∧
    (∀ r, rootDecodable r = false → bytesToYAMLDoc (.doc r) = .error (yamlTypeErr r)) := by
  refine ⟨fun _ => rfl, rfl, fun _ => rfl, rfl, ?_⟩
  intro r h
  cases r
  · rfl
  · rfl
  · rfl
  · rfl
  · exact absurd h (by simp [rootDecodable])
  · rfl
  · exact absurd h (by simp [rootDecodable])

theorem claim_C10_witness :
    bytesToYAMLDoc (.parseError "yaml: line 1: did not find expected key") =
      .error "yaml: line 1: did not find expected key" ∧
    bytesToYAMLDoc (.doc (.map [(GNode.str "a", GNode.int 1)])) =
      .ok (.map [(GNode.str "a", GNode.int 1)]) ∧
    bytesToYAMLDoc (.doc (.str "hello")) = .error (yamlTypeErr (.str "hello")) :=
  ⟨claim_C10_amended.1 "yaml: line 1: did not find expected key",
    claim_C10_amended.2.2.1 [(GNode.str "a", GNode.int 1)],
    claim_C10_amended.2.2.2.2 (.str "hello") (by decide)⟩

end Yaml2Json

